import Mathlib

/-!
Verification of the chunk-and-retrieve core of mcp-document-server.

This file gives a shallow embedding of the two core source modules:

* `chunker.py` — `chunk_text` / `chunk_by_pages`: document text (a list of
  characters, mirroring a Python `str`) is split into overlapping windows.
  The cursor loop of `chunk_text` is embedded with an explicit fuel
  parameter, because (as proved below) the loop does not terminate on all
  inputs.  Python's unbounded integers are modelled by `Int` where a value
  can go negative, and by `Nat` where the source keeps it non-negative.

* `search.py` — `DocumentIndex`: three co-maintained mappings (Python
  dicts, embedded as insertion-ordered association lists over `String`
  keys), cosine similarity over real-valued vectors (floats are modelled
  by `ℝ`), and ranked retrieval.  The external Cohere embedder is an
  injected collaborator: operations that call it take the produced
  embedding vectors as arguments.
-/

namespace McpDocServer

/-! ### chunker.py: helpers -/

/-- Leading part of Python `str.strip()`: drop leading whitespace. -/
def lstrip (l : List Char) : List Char := l.dropWhile Char.isWhitespace

/-- Python `str.strip()`: drop leading and trailing whitespace. -/
def strip (l : List Char) : List Char :=
  ((lstrip l).reverse.dropWhile Char.isWhitespace).reverse

/-- Python slice `text[s:e]` (for `0 ≤ s ≤ e`; out-of-range ends clamp). -/
def slice (l : List Char) (s e : Nat) : List Char := (l.drop s).take (e - s)

/-- Does `sep` occur in `text` starting at position `l`? -/
def matchesAt (text sep : List Char) (l : Nat) : Bool :=
  (text.drop l).take sep.length == sep

/-- Largest position in `[s, b]` at which `sep` matches, searching downward
from `b`. -/
def rfindFrom (text sep : List Char) (s : Nat) : Nat → Option Nat
  | 0 => if s = 0 ∧ matchesAt text sep 0 then some 0 else none
  | b + 1 =>
    if b + 1 < s then none
    else if matchesAt text sep (b + 1) then some (b + 1)
    else rfindFrom text sep s b

/-- Python `text.rfind(sep, s, e)`: largest `l` with `s ≤ l` and
`l + sep.length ≤ e` such that `sep` occurs at `l`; `none` when there is no
occurrence (Python returns `-1`). -/
def rfind (text sep : List Char) (s e : Nat) : Option Nat :=
  if sep.length ≤ e then rfindFrom text sep s (e - sep.length) else none

/-- Number of words of Python `str.split()`: count of maximal
whitespace-free runs.  The flag records whether we are inside a word. -/
def countWordsAux : Bool → List Char → Nat
  | _, [] => 0
  | inWord, c :: cs =>
    if c.isWhitespace then countWordsAux false cs
    else (if inWord then 0 else 1) + countWordsAux true cs

def countWords (l : List Char) : Nat := countWordsAux false l

/-! ### chunker.py: data model -/

/-- The metadata dict attached to a chunk: `chunk_size` and `word_count`
are always present; `page` is added by `chunk_by_pages`. -/
structure ChunkMeta where
  chunk_size : Nat
  word_count : Nat
  page : Option Nat
deriving DecidableEq

/-- A single document chunk (dataclass `Chunk` of `chunker.py`). -/
structure Chunk where
  id : String
  doc_id : String
  text : List Char
  index : Nat
  start_char : Nat
  end_char : Nat
  metadata : ChunkMeta
deriving DecidableEq

/-- Chunk-id derivation.  The source hashes the string
`f"{doc_id}:{index}:{start}"` with sha256 and keeps 12 hex characters; we
model the id by the preimage string itself, which is deterministic and
injective in the triple, so derivation and reproducibility claims are
preserved. -/
def mkId (docId : String) (index start : Nat) : String :=
  docId ++ ":" ++ toString index ++ ":" ++ toString start

/-- The chunk emitted for window `[start, e)` with trimmed content
`content`. -/
def mkChunk (docId : String) (index start e : Nat) (content : List Char) : Chunk :=
  { id := mkId docId index start
    doc_id := docId
    text := content
    index := index
    start_char := start
    end_char := e
    metadata :=
      { chunk_size := content.length
        word_count := countWords content
        page := none } }

/-- Window end for the cursor position `start`: candidate `start + csize`,
snapped back to just past the last separator occurrence strictly after
`start` when the candidate end falls strictly inside the text. -/
def chunkEnd (text sep : List Char) (csize start : Nat) : Nat :=
  let end0 := start + csize
  if end0 < text.length then
    match rfind text sep start end0 with
    | some l => if start < l then l + sep.length else end0
    | none => end0
  else end0

/-- The forced-progress guard of `chunk_text` (line 92 of `chunker.py`):
with chunks emitted, fire when the new start does not exceed the last
emitted chunk's start; with no chunks, fire when it does not exceed 0.
A negative Python cursor always fires the guard, and so does its `Nat`
truncation to 0, so the `Nat` model agrees with the source. -/
def guardForce (chunks : List Chunk) (start1 : Nat) : Bool :=
  match chunks.getLast? with
  | some c => decide (start1 ≤ c.start_char)
  | none => decide (start1 ≤ 0)

/-- The chunk list after the iteration at cursor `start` (lines 66–85 of
`chunker.py`): unchanged when the trimmed window is empty, otherwise with
the freshly emitted chunk appended. -/
def stepChunks (text : List Char) (docId : String) (sep : List Char) (csize : Nat)
    (start index : Nat) (chunks : List Chunk) : List Chunk :=
  let e := chunkEnd text sep csize start
  let content := strip (slice text start e)
  if content = [] then chunks else chunks ++ [mkChunk docId index start e content]

/-- The running index after the iteration at cursor `start`: incremented
exactly when a chunk was emitted. -/
def stepIndex (text : List Char) (sep : List Char) (csize : Nat)
    (start index : Nat) : Nat :=
  if strip (slice text start (chunkEnd text sep csize start)) = [] then index
  else index + 1

/-- One iteration of the cursor loop of `chunk_text` (lines 56–93 of
`chunker.py`): either the loop finishes with the final chunk list
(`Sum.inl`), or it continues with a new cursor, index and chunk list
(`Sum.inr`). -/
def chunkStep (text : List Char) (docId : String) (csize ov : Nat) (sep : List Char)
    (start index : Nat) (chunks : List Chunk) : List Chunk ⊕ Nat × Nat × List Chunk :=
  if start < text.length then
    let e := chunkEnd text sep csize start
    let chunks' := stepChunks text docId sep csize start index chunks
    let start1 := e - ov
    if text.length ≤ start1 then Sum.inl chunks'
    else
      Sum.inr (if guardForce chunks' start1 then e else start1,
        stepIndex text sep csize start index, chunks')
  else Sum.inl chunks

/-- The cursor loop of `chunk_text` (lines 56–95 of `chunker.py`), with
fuel.  `none` means the fuel ran out before the loop finished. -/
def chunkLoop (text : List Char) (docId : String) (csize ov : Nat) (sep : List Char) :
    Nat → Nat → Nat → List Chunk → Option (List Chunk)
  | 0, _, _, _ => none
  | fuel + 1, start, index, chunks =>
    match chunkStep text docId csize ov sep start index chunks with
    | .inl r => some r
    | .inr (start2, index2, chunks2) =>
      chunkLoop text docId csize ov sep fuel start2 index2 chunks2

/-- Result of a chunking call: a normal return, a raised `ValueError`
(the spec's `InvalidArgument`), or fuel exhaustion (the source loop did
not terminate within `fuel` iterations). -/
inductive ChunkResult where
  | ok (chunks : List Chunk)
  | invalidArgument (msg : String)
  | outOfFuel
deriving DecidableEq

/-- `chunk_text` of `chunker.py`.  Note the source checks for blank text
(and returns `[]`) before validating `chunk_size` and `overlap`. -/
def chunk_text (fuel : Nat) (text : List Char) (docId : String)
    (chunk_size overlap : Int) (separator : List Char) : ChunkResult :=
  if strip text = [] then .ok []
  else if chunk_size ≤ 0 then .invalidArgument ("chunk_size must be positive")
  else if overlap < 0 then .invalidArgument ("overlap must be non-negative")
  else if chunk_size ≤ overlap then .invalidArgument ("overlap must be less than chunk_size")
  else
    match chunkLoop text docId chunk_size.toNat overlap.toNat separator fuel 0 0 [] with
    | some cs => .ok cs
    | none => .outOfFuel

/-- Re-assign contiguous indices `0..N-1` over a combined chunk list
(lines 136–137 of `chunker.py`). -/
def reindex (l : List Chunk) : List Chunk :=
  l.enum.map fun p => { p.2 with index := p.1 }

/-- Relabelling applied to each page chunk: stamp the 1-based page number
and restore the outer document id (lines 129–131 of `chunker.py`). -/
def relabel (docId : String) (pnum : Nat) (c : Chunk) : Chunk :=
  { c with doc_id := docId, metadata := { c.metadata with page := some (pnum + 1) } }

/-- Page iteration of `chunk_by_pages`: blank pages are skipped; a raised
error (or fuel exhaustion) in any page aborts the whole call. -/
def pagesLoop (fuel : Nat) (docId : String) (cs ov : Int) :
    List (List Char) → Nat → ChunkResult
  | [], _ => .ok []
  | page :: rest, pnum =>
    if strip page = [] then pagesLoop fuel docId cs ov rest (pnum + 1)
    else
      match chunk_text fuel page (docId ++ "_p" ++ toString pnum) cs ov ['\n'] with
      | .ok pcs =>
        match pagesLoop fuel docId cs ov rest (pnum + 1) with
        | .ok restCs => .ok (pcs.map (relabel docId pnum) ++ restCs)
        | r => r
      | r => r

/-- `chunk_by_pages` of `chunker.py`: per-page chunking with the synthetic
document id `f"{doc_id}_p{page_num}"`, page stamping, concatenation in
page order, then global re-indexing. -/
def chunk_by_pages (fuel : Nat) (pages : List (List Char)) (docId : String)
    (chunk_size overlap : Int) : ChunkResult :=
  match pagesLoop fuel docId chunk_size overlap pages 0 with
  | .ok all => .ok (reindex all)
  | r => r

/-! ### search.py: association lists modelling Python dicts

Python dicts are insertion-ordered; we embed them as association lists.
Assignment to an existing key keeps its position (as in CPython), a new
key is appended. -/

def alistLookup {α : Type} (k : String) : List (String × α) → Option α
  | [] => none
  | p :: ps => if p.1 = k then some p.2 else alistLookup k ps

def alistInsert {α : Type} (k : String) (v : α) : List (String × α) → List (String × α)
  | [] => [(k, v)]
  | p :: ps => if p.1 = k then (k, v) :: ps else p :: alistInsert k v ps

/-- `dict.pop(k, None)` / `del dict[k]`: drop the entry with key `k`. -/
def alistErase {α : Type} (k : String) (l : List (String × α)) : List (String × α) :=
  l.filter fun p => decide (p.1 ≠ k)

def keysOf {α : Type} (l : List (String × α)) : List String := l.map Prod.fst

/-! ### search.py: DocumentIndex -/

/-- The three co-maintained mappings of `DocumentIndex`:
chunk-id → Chunk, chunk-id → embedding vector, doc-id → chunk-id list. -/
structure DocumentIndex where
  chunks : List (String × Chunk)
  embeddings : List (String × List ℝ)
  docChunks : List (String × List String)

def emptyIndex : DocumentIndex := ⟨[], [], []⟩

/-- One pass of the registration loop of `add_chunks`
(lines 55–61 of `search.py`). -/
def addOne (idx : DocumentIndex) (c : Chunk) (emb : List ℝ) : DocumentIndex :=
  { chunks := alistInsert c.id c idx.chunks
    embeddings := alistInsert c.id emb idx.embeddings
    docChunks :=
      alistInsert c.doc_id
        ((alistLookup c.doc_id idx.docChunks).getD [] ++ [c.id]) idx.docChunks }

/-- `add_chunks` (lines 42–63 of `search.py`).  The embedder is an external
collaborator, so the embedding vectors it produced are passed in; Python's
`zip` truncates to the shorter list.  Returns the updated index and the
returned count, which is `len(chunks)` for any non-empty input. -/
def add_chunks (idx : DocumentIndex) (cs : List Chunk) (embs : List (List ℝ)) :
    DocumentIndex × Nat :=
  if cs = [] then (idx, 0)
  else ((cs.zip embs).foldl (fun i p => addOne i p.1 p.2) idx, cs.length)

/-- `remove_document` (lines 109–116 of `search.py`). -/
def remove_document (idx : DocumentIndex) (docId : String) : DocumentIndex :=
  match alistLookup docId idx.docChunks with
  | none => idx
  | some cids =>
    { chunks := cids.foldl (fun m cid => alistErase cid m) idx.chunks
      embeddings := cids.foldl (fun m cid => alistErase cid m) idx.embeddings
      docChunks := alistErase docId idx.docChunks }

/-- `list_documents` (lines 118–123): document id and chunk count, in
insertion order. -/
def list_documents (idx : DocumentIndex) : List (String × Nat) :=
  idx.docChunks.map fun p => (p.1, p.2.length)

/-- `total_chunks` (lines 125–127). -/
def total_chunks (idx : DocumentIndex) : Nat := idx.chunks.length

/-! ### search.py: cosine similarity and search -/

/-- `sum(x * y for x, y in zip(a, b))`. -/
def dotProduct (a b : List ℝ) : ℝ := (List.zipWith (· * ·) a b).sum

/-- `math.sqrt(sum(x * x for x in a))`. -/
noncomputable def magnitude (a : List ℝ) : ℝ :=
  Real.sqrt ((a.map fun x => x * x).sum)

/-- `_cosine_similarity` (lines 141–149 of `search.py`); floats are
modelled by `ℝ`. -/
noncomputable def cosine_similarity (a b : List ℝ) : ℝ :=
  if magnitude a = 0 ∨ magnitude b = 0 then 0
  else dotProduct a b / (magnitude a * magnitude b)

/-- A search result with relevance score. -/
structure SearchResult where
  chunk : Chunk
  score : ℝ

/-- Stable descending insertion: the new result is placed after every
already-present result with a strictly greater or equal score. -/
noncomputable def insertDesc (r : SearchResult) :
    List SearchResult → List SearchResult
  | [] => [r]
  | x :: xs => if x.score ≤ r.score then r :: x :: xs else x :: insertDesc r xs

/-- `results.sort(key=lambda r: r.score, reverse=True)`: Python's sort is
stable, modelled by stable insertion sort (elements are inserted from the
right, each placed before the equal-scored results that follow it in the
input). -/
noncomputable def sortDesc : List SearchResult → List SearchResult
  | [] => []
  | x :: xs => insertDesc x (sortDesc xs)

/-- Candidate ids of a search (lines 85–88 of `search.py`): the scoped
document's chunk-id list when `doc_id` is truthy (non-empty) and known,
otherwise all indexed chunk ids. -/
def candidateIds (idx : DocumentIndex) (docId : Option String) : List String :=
  match docId with
  | some d =>
    if d ≠ "" ∧ (alistLookup d idx.docChunks).isSome
    then (alistLookup d idx.docChunks).getD []
    else keysOf idx.chunks
  | none => keysOf idx.chunks

/-- The encounter-ordered scored results (lines 94–104 of `search.py`):
every candidate with a stored vector is scored against the query vector.
The source then reads `self._chunks[chunk_id]`, which would raise
`KeyError` were the id missing from the chunk map; that cannot happen in
a well-formed index, and the model skips such an id. -/
noncomputable def rankedCandidates (idx : DocumentIndex) (queryEmb : List ℝ)
    (docId : Option String) : List SearchResult :=
  (candidateIds idx docId).filterMap fun cid =>
    match alistLookup cid idx.embeddings, alistLookup cid idx.chunks with
    | some emb, some c => some ⟨c, cosine_similarity queryEmb emb⟩
    | _, _ => none

/-- Python slice `l[:k]` for an int `k`: a nonnegative `k` takes the first
`k` elements, a negative `k` drops the last `|k|`. -/
def pySlice {α : Type} (l : List α) (k : Int) : List α :=
  if 0 ≤ k then l.take k.toNat else l.take ((l.length : Int) + k).toNat

/-- `search` (lines 65–107 of `search.py`).  The query embedding comes
from the external embedder.  The source's early `return []` for an empty
candidate set coincides with slicing the empty ranked list. -/
noncomputable def search (idx : DocumentIndex) (queryEmb : List ℝ)
    (docId : Option String) (top_k : Int) : List SearchResult :=
  pySlice (sortDesc (rankedCandidates idx queryEmb docId)) top_k

/-! ### Index invariants -/

/-- The cross-mapping consistency stated by the spec: a chunk id present
in one of the three mappings is present in the other two. -/
def Consistent (idx : DocumentIndex) : Prop :=
  ∀ cid : String,
    ((alistLookup cid idx.chunks).isSome ↔ (alistLookup cid idx.embeddings).isSome) ∧
    ((alistLookup cid idx.chunks).isSome ↔ ∃ p ∈ idx.docChunks, cid ∈ p.2)

/-- Well-formedness of an index: the dict models have duplicate-free keys,
the chunk and embedding maps have the same keys, every indexed chunk id is
listed for exactly one document (lists duplicate-free and pairwise
disjoint), and each listed id maps to a chunk carrying that document id. -/
def WellFormed (idx : DocumentIndex) : Prop :=
  (keysOf idx.chunks).Nodup ∧
  keysOf idx.embeddings = keysOf idx.chunks ∧
  (keysOf idx.docChunks).Nodup ∧
  (∀ cid ∈ keysOf idx.chunks, ∃ p ∈ idx.docChunks, cid ∈ p.2) ∧
  (∀ p ∈ idx.docChunks, p.2.Nodup) ∧
  idx.docChunks.Pairwise (fun p q => ∀ cid ∈ p.2, cid ∉ q.2) ∧
  (∀ p ∈ idx.docChunks, ∀ cid ∈ p.2,
    (alistLookup cid idx.chunks).map Chunk.doc_id = some p.1)

instance (idx : DocumentIndex) : Decidable (WellFormed idx) := by
  unfold WellFormed
  infer_instance

/-! ### Concrete instances used in witnesses and counterexamples -/

/-- A text on which the cursor loop of `chunk_text` gets stuck with
`chunk_size = 4`, `overlap = 2`, separator `"\n"`: after two emitting
iterations the cursor reaches 4, the window `[4, 8)` snaps back to the
separator at 5, the trimmed window `" \n"` is empty, the new cursor
`6 - 2 = 4` exceeds the last emitted chunk's start 2, so the guard does
not fire and the state repeats forever. -/
def loopText : List Char := ("abcd \nxxyzw").toList

/-- A second text of the same stuck shape. -/
def loopText2 : List Char := ("qrst \nvwxyz").toList

/-- The loop state reached from `loopText` after two iterations (cursor 4,
next index 2); one more iteration maps it to itself. -/
def loopStuckChunks : List Chunk :=
  [mkChunk "d" 0 0 4 (("abcd").toList), mkChunk "d" 1 2 6 (("cd").toList)]

def loopStuckChunks2 : List Chunk :=
  [mkChunk "d" 0 0 4 (("qrst").toList), mkChunk "d" 1 2 6 (("st").toList)]

/-- `chunk_text` on this input returns normally within some fuel. -/
def ChunkTextReturns (text : List Char) (docId : String) (cs ov : Int) (sep : List Char) : Prop :=
  ∃ fuel r, chunk_text fuel text docId cs ov sep = ChunkResult.ok r

/-- Invariant of the cursor loop used to analyse `chunk_text`: while no
chunk has been emitted the scanned prefix is all whitespace; the running
index counts the emitted chunks, whose index fields are 0..N-1 and whose
start offsets increase strictly, the last one lying strictly before the
cursor. -/
def chunkInv (text : List Char) (start index : Nat) (chunks : List Chunk) : Prop :=
  (chunks = [] → ∀ ch ∈ text.take start, ch.isWhitespace = true) ∧
  index = chunks.length ∧
  chunks.map Chunk.index = List.range chunks.length ∧
  List.Chain' (· < ·) (chunks.map Chunk.start_char) ∧
  (∀ c, chunks.getLast? = some c → c.start_char < start)

def chunkA : Chunk :=
  { id := "x", doc_id := "a", text := ("aa").toList, index := 0,
    start_char := 0, end_char := 2, metadata := ⟨2, 1, none⟩ }

def chunkB : Chunk :=
  { id := "y", doc_id := "b", text := ("bb").toList, index := 0,
    start_char := 0, end_char := 2, metadata := ⟨2, 1, none⟩ }

/-- A chunk whose owning document id is the empty string. -/
def chunkE : Chunk :=
  { id := "e1", doc_id := "", text := ("ee").toList, index := 0,
    start_char := 0, end_char := 2, metadata := ⟨2, 1, none⟩ }

/-- A small two-document index. -/
def idx0 : DocumentIndex :=
  { chunks := [("x", chunkA), ("y", chunkB)]
    embeddings := [("x", [1]), ("y", [0])]
    docChunks := [("a", ["x"]), ("b", ["y"])] }

/-- Two chunks sharing the id `"x"` but owned by different documents. -/
def chunkXA : Chunk :=
  { id := "x", doc_id := "A", text := ("t").toList, index := 0,
    start_char := 0, end_char := 1, metadata := ⟨1, 1, none⟩ }

def chunkXB : Chunk :=
  { id := "x", doc_id := "B", text := ("t").toList, index := 0,
    start_char := 0, end_char := 1, metadata := ⟨1, 1, none⟩ }

/-- Index reached by adding id `"x"` under document `"A"`, re-adding the
same id under document `"B"`, then removing document `"A"`. -/
def badIndex : DocumentIndex :=
  remove_document
    ((add_chunks ((add_chunks emptyIndex [chunkXA] [[1]]).1) [chunkXB] [[1]]).1) "A"

/-- Index reached by adding the same chunk twice (re-indexing the same
document). -/
def idxReadd : DocumentIndex :=
  (add_chunks ((add_chunks emptyIndex [chunkXA] [[1]]).1) [chunkXA] [[1]]).1

/-- Index holding one chunk under the empty-string document id and one
under document `"b"`, built by a single add. -/
def idxEmptyDoc : DocumentIndex :=
  (add_chunks emptyIndex [chunkE, chunkB] [[0], [0]]).1

/-! ## Claim C1: parameter validation -/

/-- C1 counterexample: with empty text, `chunk_size = 0` and
`overlap = -1` — both invalid — `chunk_text` returns an empty chunk list
instead of raising `InvalidArgument`, because the blank-text check
precedes validation. -/
theorem C1_blank_text_skips_validation :
    chunk_text 1 [] "d" 0 (-1) ['\n'] = ChunkResult.ok [] := rfl

/-- C1 (amended): for non-blank text, `chunk_size ≤ 0`, negative
`overlap`, and `overlap ≥ chunk_size` each raise `InvalidArgument` before
any chunking work, producing no chunks; blank text instead returns `[]`
without validating. -/
theorem C1_validation (fuel : Nat) (text : List Char) (d : String) (cs ov : Int)
    (sep : List Char) (hnb : ¬ strip text = []) :
    (cs ≤ 0 → chunk_text fuel text d cs ov sep =
      ChunkResult.invalidArgument ("chunk_size must be positive")) ∧
    (0 < cs → ov < 0 → chunk_text fuel text d cs ov sep =
      ChunkResult.invalidArgument ("overlap must be non-negative")) ∧
    (0 < cs → 0 ≤ ov → cs ≤ ov → chunk_text fuel text d cs ov sep =
      ChunkResult.invalidArgument ("overlap must be less than chunk_size")) := by
  refine ⟨fun h1 => ?_, fun h1 h2 => ?_, fun h1 h2 h3 => ?_⟩
  · simp only [chunk_text, if_neg hnb, if_pos h1]
  · simp only [chunk_text, if_neg hnb, if_neg (not_le.mpr h1), if_pos h2]
  · simp only [chunk_text, if_neg hnb, if_neg (not_le.mpr h1),
      if_neg (not_lt.mpr h2), if_pos h3]

theorem C1_validation_witness :
    chunk_text 1 (("hi").toList) "d" 0 0 ['\n'] =
      ChunkResult.invalidArgument ("chunk_size must be positive") ∧
    chunk_text 1 (("hi").toList) "d" 5 (-1) ['\n'] =
      ChunkResult.invalidArgument ("overlap must be non-negative") ∧
    chunk_text 1 (("hi").toList) "d" 5 7 ['\n'] =
      ChunkResult.invalidArgument ("overlap must be less than chunk_size") :=
  ⟨(C1_validation 1 (("hi").toList) "d" 0 0 ['\n'] (by decide)).1 (by norm_num),
   (C1_validation 1 (("hi").toList) "d" 5 (-1) ['\n'] (by decide)).2.1 (by norm_num) (by norm_num),
   (C1_validation 1 (("hi").toList) "d" 5 7 ['\n'] (by decide)).2.2
     (by norm_num) (by norm_num) (by norm_num)⟩

/-! ## Claim C4: the forced-progress guard does not rule out loops -/

lemma chunkStep_loopText_stuck :
    chunkStep loopText "d" 4 2 ['\n'] 4 2 loopStuckChunks =
      Sum.inr (4, 2, loopStuckChunks) := rfl

lemma chunkLoop_loopText_stuck (fuel : Nat) :
    chunkLoop loopText "d" 4 2 ['\n'] fuel 4 2 loopStuckChunks = none := by
  induction fuel with
  | zero => rfl
  | succ n ih =>
    have h : chunkLoop loopText "d" 4 2 ['\n'] (n + 1) 4 2 loopStuckChunks =
        chunkLoop loopText "d" 4 2 ['\n'] n 4 2 loopStuckChunks := rfl
    exact h.trans ih

lemma chunkLoop_loopText_init (fuel : Nat) :
    chunkLoop loopText "d" 4 2 ['\n'] (fuel + 2) 0 0 [] =
      chunkLoop loopText "d" 4 2 ['\n'] fuel 4 2 loopStuckChunks := rfl

lemma chunkLoop_loopText_none (fuel : Nat) :
    chunkLoop loopText "d" 4 2 ['\n'] fuel 0 0 [] = none := by
  match fuel with
  | 0 => rfl
  | 1 => rfl
  | (n + 2) => exact (chunkLoop_loopText_init n).trans (chunkLoop_loopText_stuck n)

/-- C4 is a code bug: the source comment `# Avoid infinite loops`
notwithstanding, the guard compares the new cursor with the last *emitted*
chunk's start, not with the previous cursor, so on `loopText` with
`chunk_size = 4, overlap = 2, separator = "\n"` the loop repeats the state
(cursor 4) forever: `chunk_text` runs out of any amount of fuel. -/
theorem C4_chunk_text_diverges (fuel : Nat) :
    chunk_text fuel loopText "d" 4 2 ['\n'] = ChunkResult.outOfFuel := by
  have h := chunkLoop_loopText_none fuel
  show (match chunkLoop loopText "d" 4 2 ['\n'] fuel 0 0 [] with
        | some cs => ChunkResult.ok cs
        | none => ChunkResult.outOfFuel) = ChunkResult.outOfFuel
  rw [h]

/-! ## Claim C9: cosine similarity is total over the real model -/

lemma sum_map_neg_real (l : List ℝ) : (l.map fun x => -x).sum = -l.sum := by
  induction l with
  | nil => simp
  | cons x xs ih => simp [ih]; ring

lemma sumsq_nonneg (l : List ℝ) : 0 ≤ (l.map fun x => x * x).sum := by
  refine List.sum_nonneg ?_
  intro x hx
  obtain ⟨y, -, rfl⟩ := List.mem_map.mp hx
  exact mul_self_nonneg y

lemma magnitude_map_neg (l : List ℝ) : magnitude (l.map fun x => -x) = magnitude l := by
  unfold magnitude
  rw [List.map_map,
    show ((fun x : ℝ => x * x) ∘ fun x : ℝ => -x) = fun x : ℝ => x * x from
      funext fun x => by simp]

lemma dotProduct_self (l : List ℝ) : dotProduct l l = (l.map fun x => x * x).sum := by
  unfold dotProduct
  rw [List.zipWith_same]

/-- C9: the cosine-similarity of `search.py` (over the real-number model
of floats) is total: a zero magnitude on either side gives exactly 0,
otherwise the value is the dot product over the product of magnitudes;
hence self-similarity is 1 and similarity with the negation is -1. -/
theorem C9_cosine_similarity_total (a b : List ℝ) :
    (magnitude a = 0 ∨ magnitude b = 0 → cosine_similarity a b = 0) ∧
    (magnitude a ≠ 0 → magnitude b ≠ 0 →
      cosine_similarity a b = dotProduct a b / (magnitude a * magnitude b)) ∧
    (magnitude a ≠ 0 →
      cosine_similarity a a = 1 ∧
      cosine_similarity a (a.map fun x => -x) = -1) := by
  refine ⟨fun h => ?_, fun ha hb => ?_, fun ha => ?_⟩
  · unfold cosine_similarity
    rw [if_pos h]
  · unfold cosine_similarity
    rw [if_neg (by push_neg; exact ⟨ha, hb⟩)]
  · have hs0 : (a.map fun x => x * x).sum ≠ 0 := by
      intro h0
      apply ha
      unfold magnitude
      rw [h0, Real.sqrt_zero]
    constructor
    · unfold cosine_similarity
      rw [if_neg (by push_neg; exact ⟨ha, ha⟩), dotProduct_self]
      unfold magnitude
      rw [Real.mul_self_sqrt (sumsq_nonneg a)]
      exact div_self hs0
    · have hcond : ¬ (magnitude a = 0 ∨ magnitude (a.map fun x => -x) = 0) := by
        rw [magnitude_map_neg]
        push_neg
        exact ⟨ha, ha⟩
      have hdot : dotProduct a (a.map fun x => -x) = -((a.map fun x => x * x).sum) := by
        unfold dotProduct
        rw [List.zipWith_map_right, List.zipWith_same,
          show (fun x : ℝ => x * -x) = ((fun x : ℝ => -x) ∘ fun x : ℝ => x * x) from
            funext fun x => by simp [Function.comp],
          ← List.map_map]
        exact sum_map_neg_real _
      unfold cosine_similarity
      rw [if_neg hcond, hdot, magnitude_map_neg]
      unfold magnitude
      rw [Real.mul_self_sqrt (sumsq_nonneg a)]
      rw [neg_div, div_self hs0]

theorem C9_witness :
    cosine_similarity [(1:ℝ), 0] [0, 0] = 0 ∧
    cosine_similarity [(1:ℝ), 0] [(1:ℝ), 0] = 1 ∧
    cosine_similarity [(1:ℝ), 0] ([(1:ℝ), 0].map fun x => -x) = -1 := by
  have h1 : magnitude [(0:ℝ), 0] = 0 := by
    unfold magnitude
    norm_num
  have h2 : magnitude [(1:ℝ), 0] ≠ 0 := by
    unfold magnitude
    norm_num
  exact ⟨(C9_cosine_similarity_total [(1:ℝ), 0] [(0:ℝ), 0]).1 (Or.inr h1),
    ((C9_cosine_similarity_total [(1:ℝ), 0] [(1:ℝ), 0]).2.2 h2).1,
    ((C9_cosine_similarity_total [(1:ℝ), 0] [(1:ℝ), 0]).2.2 h2).2⟩

/-! ## Claim C10: Python slice semantics of top_k -/

/-- C10: `top_k = 0` yields no results regardless of candidates, and a
negative `top_k` yields all ranked results except the last `|top_k|`
(Python slice semantics), with no error. -/
theorem C10_top_k_slice (idx : DocumentIndex) (qe : List ℝ) (d : Option String)
    (k : Int) (hwf : WellFormed idx) :
    search idx qe d 0 = [] ∧
    (k < 0 → search idx qe d k =
      (sortDesc (rankedCandidates idx qe d)).take
        ((sortDesc (rankedCandidates idx qe d)).length - (-k).toNat)) := by
  constructor
  · simp [search, pySlice]
  · intro hk
    unfold search pySlice
    rw [if_neg (by omega)]
    congr 1
    omega

theorem C10_witness :
    search idx0 [(1:ℝ)] none 0 = [] ∧
    search idx0 [(1:ℝ)] none (-1) =
      (sortDesc (rankedCandidates idx0 [(1:ℝ)] none)).take
        ((sortDesc (rankedCandidates idx0 [(1:ℝ)] none)).length - 1) := by
  refine ⟨(C10_top_k_slice idx0 [(1:ℝ)] none 0 (by decide)).1, ?_⟩
  have h := (C10_top_k_slice idx0 [(1:ℝ)] none (-1) (by decide)).2 (by norm_num)
  simpa using h

/-! ## Loop analysis machinery -/

lemma chunkStep_inr_parts {text : List Char} {docId : String} {csize ov : Nat}
    {sep : List Char} {s i : Nat} {cs : List Chunk} {s' i' : Nat} {cs' : List Chunk}
    (h : chunkStep text docId csize ov sep s i cs = Sum.inr (s', i', cs')) :
    s < text.length ∧ ¬ text.length ≤ chunkEnd text sep csize s - ov ∧
    cs' = stepChunks text docId sep csize s i cs ∧
    i' = stepIndex text sep csize s i ∧
    s' = (if guardForce (stepChunks text docId sep csize s i cs)
            (chunkEnd text sep csize s - ov)
          then chunkEnd text sep csize s else chunkEnd text sep csize s - ov) := by
  by_cases h1 : s < text.length
  · by_cases h2 : text.length ≤ chunkEnd text sep csize s - ov
    · simp only [chunkStep, if_pos h1, if_pos h2] at h
      exact Sum.noConfusion h
    · simp only [chunkStep, if_pos h1, if_neg h2, Sum.inr.injEq, Prod.mk.injEq] at h
      obtain ⟨ha, hb, hc⟩ := h
      exact ⟨h1, h2, hc.symm, hb.symm, ha.symm⟩
  · simp only [chunkStep, if_neg h1] at h
    exact Sum.noConfusion h

lemma chunkStep_inl_parts {text : List Char} {docId : String} {csize ov : Nat}
    {sep : List Char} {s i : Nat} {cs : List Chunk} {r : List Chunk}
    (h : chunkStep text docId csize ov sep s i cs = Sum.inl r) :
    (¬ s < text.length ∧ r = cs) ∨
    (s < text.length ∧ text.length ≤ chunkEnd text sep csize s - ov ∧
      r = stepChunks text docId sep csize s i cs) := by
  by_cases h1 : s < text.length
  · by_cases h2 : text.length ≤ chunkEnd text sep csize s - ov
    · simp only [chunkStep, if_pos h1, if_pos h2] at h
      exact Or.inr ⟨h1, h2, (Sum.inl.inj h).symm⟩
    · simp only [chunkStep, if_pos h1, if_neg h2] at h
      exact Sum.noConfusion h
  · simp only [chunkStep, if_neg h1] at h
    exact Or.inl ⟨h1, (Sum.inl.inj h).symm⟩

lemma stepChunks_shape (text : List Char) (docId : String) (sep : List Char)
    (csize s i : Nat) (cs : List Chunk) :
    (strip (slice text s (chunkEnd text sep csize s)) = [] ∧
      stepChunks text docId sep csize s i cs = cs) ∨
    (strip (slice text s (chunkEnd text sep csize s)) ≠ [] ∧
      stepChunks text docId sep csize s i cs =
        cs ++ [mkChunk docId i s (chunkEnd text sep csize s)
          (strip (slice text s (chunkEnd text sep csize s)))]) := by
  by_cases h : strip (slice text s (chunkEnd text sep csize s)) = []
  · left
    exact ⟨h, by simp only [stepChunks, if_pos h]⟩
  · right
    exact ⟨h, by simp only [stepChunks, if_neg h]⟩

/-- Invariant-based reasoning principle for the fuelled cursor loop. -/
lemma chunkLoop_inv {text : List Char} {docId : String} {csize ov : Nat}
    {sep : List Char} (P : Nat → Nat → List Chunk → Prop) (Q : List Chunk → Prop)
    (hpres : ∀ s i cs s' i' cs', P s i cs →
      chunkStep text docId csize ov sep s i cs = Sum.inr (s', i', cs') → P s' i' cs')
    (hexit : ∀ s i cs r, P s i cs →
      chunkStep text docId csize ov sep s i cs = Sum.inl r → Q r) :
    ∀ fuel s i cs r, P s i cs →
      chunkLoop text docId csize ov sep fuel s i cs = some r → Q r := by
  intro fuel
  induction fuel with
  | zero => intro s i cs r _ h; exact Option.noConfusion h
  | succ n ih =>
    intro s i cs r hP h
    rcases hst : chunkStep text docId csize ov sep s i cs with r' | ⟨s', i', cs'⟩
    · have h2 : some r' = some r := by
        rw [← h]
        simp only [chunkLoop, hst]
      obtain rfl := Option.some.inj h2
      exact hexit s i cs r' hP hst
    · have h2 : chunkLoop text docId csize ov sep n s' i' cs' = some r := by
        rw [← h]
        simp only [chunkLoop, hst]
      exact ih s' i' cs' r (hpres s i cs s' i' cs' hP hst) h2

/-- Case analysis of a successful `chunk_text` call. -/
lemma chunk_text_ok_elim {fuel : Nat} {text : List Char} {d : String} {cs ov : Int}
    {sep : List Char} {r : List Chunk}
    (h : chunk_text fuel text d cs ov sep = ChunkResult.ok r) :
    (strip text = [] ∧ r = []) ∨
    (¬ strip text = [] ∧ 0 < cs ∧ 0 ≤ ov ∧ ov < cs ∧
      chunkLoop text d cs.toNat ov.toNat sep fuel 0 0 [] = some r) := by
  by_cases h0 : strip text = []
  · left
    refine ⟨h0, ?_⟩
    unfold chunk_text at h
    rw [if_pos h0] at h
    exact (ChunkResult.ok.inj h).symm
  · right
    unfold chunk_text at h
    rw [if_neg h0] at h
    by_cases h1 : cs ≤ 0
    · rw [if_pos h1] at h
      exact ChunkResult.noConfusion h
    · rw [if_neg h1] at h
      by_cases h2 : ov < 0
      · rw [if_pos h2] at h
        exact ChunkResult.noConfusion h
      · rw [if_neg h2] at h
        by_cases h3 : cs ≤ ov
        · rw [if_pos h3] at h
          exact ChunkResult.noConfusion h
        · rw [if_neg h3] at h
          refine ⟨h0, by omega, by omega, by omega, ?_⟩
          cases hl : chunkLoop text d cs.toNat ov.toNat sep fuel 0 0 [] with
          | some cs2 =>
            rw [hl] at h
            have h4 : ChunkResult.ok cs2 = ChunkResult.ok r := h
            exact congrArg some (ChunkResult.ok.inj h4)
          | none =>
            rw [hl] at h
            exact ChunkResult.noConfusion h

/-! ## Claim C5: chunk-id derivation -/

/-- Every chunk emitted by the cursor loop carries the document id it was
called with, and an id derived from that id, its index and its start. -/
lemma chunkLoop_fields (text : List Char) (docId : String) (csize ov : Nat)
    (sep : List Char) :
    ∀ fuel s i cs r,
      (∀ c ∈ cs, c.doc_id = docId ∧ c.id = mkId docId c.index c.start_char) →
      chunkLoop text docId csize ov sep fuel s i cs = some r →
      ∀ c ∈ r, c.doc_id = docId ∧ c.id = mkId docId c.index c.start_char := by
  refine chunkLoop_inv _ _ ?_ ?_
  · intro s i cs s' i' cs' hP hst
    obtain ⟨-, -, rfl, -, -⟩ := chunkStep_inr_parts hst
    rcases stepChunks_shape text docId sep csize s i cs with ⟨-, hsh⟩ | ⟨-, hsh⟩ <;> rw [hsh]
    · exact hP
    · intro c hc
      rcases List.mem_append.mp hc with hc1 | hc2
      · exact hP c hc1
      · obtain rfl := List.mem_singleton.mp hc2
        exact ⟨rfl, rfl⟩
  · intro s i cs r hP hst
    rcases chunkStep_inl_parts hst with ⟨-, rfl⟩ | ⟨-, -, rfl⟩
    · exact hP
    · rcases stepChunks_shape text docId sep csize s i cs with ⟨-, hsh⟩ | ⟨-, hsh⟩ <;> rw [hsh]
      · exact hP
      · intro c hc
        rcases List.mem_append.mp hc with hc1 | hc2
        · exact hP c hc1
        · obtain rfl := List.mem_singleton.mp hc2
          exact ⟨rfl, rfl⟩

lemma chunk_text_fields {fuel : Nat} {text : List Char} {d : String} {cs ov : Int}
    {sep : List Char} {r : List Chunk}
    (h : chunk_text fuel text d cs ov sep = ChunkResult.ok r) :
    ∀ c ∈ r, c.doc_id = d ∧ c.id = mkId d c.index c.start_char := by
  rcases chunk_text_ok_elim h with ⟨-, rfl⟩ | ⟨-, -, -, -, hl⟩
  · intro c hc
    exact absurd hc (List.not_mem_nil c)
  · exact chunkLoop_fields text d cs.toNat ov.toNat sep fuel 0 0 [] r
      (by intro c hc; exact absurd hc (List.not_mem_nil c)) hl

lemma pagesLoop_fields (fuel : Nat) (d : String) (cs ov : Int) :
    ∀ (pages : List (List Char)) (pnum : Nat) (r : List Chunk),
      pagesLoop fuel d cs ov pages pnum = ChunkResult.ok r →
      ∀ c ∈ r, ∃ (p i : Nat), c.id = mkId (d ++ "_p" ++ toString p) i c.start_char := by
  intro pages
  induction pages with
  | nil =>
    intro pnum r h
    obtain rfl : ([] : List Chunk) = r := ChunkResult.ok.inj h
    intro c hc
    exact absurd hc (List.not_mem_nil c)
  | cons page rest ih =>
    intro pnum r h
    by_cases hb : strip page = []
    · have h2 : pagesLoop fuel d cs ov rest (pnum + 1) = ChunkResult.ok r := by
        rw [← h]
        simp only [pagesLoop, if_pos hb]
      exact ih (pnum + 1) r h2
    · cases hct : chunk_text fuel page (d ++ "_p" ++ toString pnum) cs ov ['\n'] with
      | ok pcs =>
        cases hrest : pagesLoop fuel d cs ov rest (pnum + 1) with
        | ok restCs =>
          have h2 : ChunkResult.ok (pcs.map (relabel d pnum) ++ restCs) = ChunkResult.ok r := by
            rw [← h]
            simp only [pagesLoop, if_neg hb, hct, hrest]
          obtain rfl := ChunkResult.ok.inj h2
          intro c hc
          rcases List.mem_append.mp hc with hc1 | hc2
          · obtain ⟨c0, hc0, rfl⟩ := List.mem_map.mp hc1
            obtain ⟨-, hid⟩ := chunk_text_fields hct c0 hc0
            exact ⟨pnum, c0.index, by simpa [relabel] using hid⟩
          · obtain ⟨p, i, hid⟩ := ih (pnum + 1) restCs hrest c hc2
            exact ⟨p, i, hid⟩
        | invalidArgument m =>
          exfalso
          have h2 : ChunkResult.invalidArgument m = ChunkResult.ok r := by
            rw [← h]
            simp only [pagesLoop, if_neg hb, hct, hrest]
          exact ChunkResult.noConfusion h2
        | outOfFuel =>
          exfalso
          have h2 : ChunkResult.outOfFuel = ChunkResult.ok r := by
            rw [← h]
            simp only [pagesLoop, if_neg hb, hct, hrest]
          exact ChunkResult.noConfusion h2
      | invalidArgument m =>
        exfalso
        have h2 : ChunkResult.invalidArgument m = ChunkResult.ok r := by
          rw [← h]
          simp only [pagesLoop, if_neg hb, hct]
        exact ChunkResult.noConfusion h2
      | outOfFuel =>
        exfalso
        have h2 : ChunkResult.outOfFuel = ChunkResult.ok r := by
          rw [← h]
          simp only [pagesLoop, if_neg hb, hct]
        exact ChunkResult.noConfusion h2

/-- C5 counterexample: for `chunk_by_pages` output, the id is *not*
derived from the chunk's own returned `(doc_id, index, start_char)`:
the single chunk of `chunk_by_pages(["hello"], "d")` is returned with
`doc_id = "d"` but its id was derived from the synthetic per-page id
`"d_p0"`. -/
theorem C5_id_not_from_returned_fields :
    chunk_by_pages 1 [("hello").toList] "d" 500 50 =
      ChunkResult.ok [relabel "d" 0 (mkChunk "d_p0" 0 0 500 (("hello").toList))] ∧
    (relabel "d" 0 (mkChunk "d_p0" 0 0 500 (("hello").toList))).id ≠
      mkId (relabel "d" 0 (mkChunk "d_p0" 0 0 500 (("hello").toList))).doc_id
        (relabel "d" 0 (mkChunk "d_p0" 0 0 500 (("hello").toList))).index
        (relabel "d" 0 (mkChunk "d_p0" 0 0 500 (("hello").toList))).start_char :=
  ⟨by decide, by decide⟩

/-- C5 (amended): each id is deterministically derived from the document
id, index and start offset *as passed to the emitting `chunk_text` call*:
for `chunk` itself these coincide with the chunk's own returned fields;
for `chunk_by_pages` the document id is the synthetic per-page id and the
index is the pre-reindexing per-page index (the start offset is returned
unchanged), so re-chunking the same inputs still reproduces the ids. -/
theorem C5_id_derivation :
    (∀ fuel text d cs ov sep r,
      chunk_text fuel text d cs ov sep = ChunkResult.ok r →
      ∀ c ∈ r, c.id = mkId c.doc_id c.index c.start_char) ∧
    (∀ fuel pages d cs ov r,
      chunk_by_pages fuel pages d cs ov = ChunkResult.ok r →
      ∀ c ∈ r, ∃ (p i : Nat), c.id = mkId (d ++ "_p" ++ toString p) i c.start_char) := by
  constructor
  · intro fuel text d cs ov sep r h c hc
    obtain ⟨hdoc, hid⟩ := chunk_text_fields h c hc
    rw [hid, hdoc]
  · intro fuel pages d cs ov r h c hc
    unfold chunk_by_pages at h
    cases hpl : pagesLoop fuel d cs ov pages 0 with
    | ok all =>
      rw [hpl] at h
      have h2 : ChunkResult.ok (reindex all) = ChunkResult.ok r := h
      obtain rfl := ChunkResult.ok.inj h2
      unfold reindex at hc
      obtain ⟨⟨i, c0⟩, hmem, rfl⟩ := List.mem_map.mp hc
      have hc0 : c0 ∈ all := by
        have : all.enum.map Prod.snd = all := List.enum_map_snd all
        rw [← this]
        exact List.mem_map.mpr ⟨(i, c0), hmem, rfl⟩
      obtain ⟨p, i0, hid⟩ := pagesLoop_fields fuel d cs ov pages 0 all hpl c0 hc0
      exact ⟨p, i0, hid⟩
    | invalidArgument m =>
      rw [hpl] at h
      exact ChunkResult.noConfusion h
    | outOfFuel =>
      rw [hpl] at h
      exact ChunkResult.noConfusion h

theorem C5_witness :
    (chunk_text 1 (("ab").toList) "d" 5 0 ['\n'] =
      ChunkResult.ok [mkChunk "d" 0 0 5 (("ab").toList)] ∧
     (mkChunk "d" 0 0 5 (("ab").toList)).id =
      mkId (mkChunk "d" 0 0 5 (("ab").toList)).doc_id
        (mkChunk "d" 0 0 5 (("ab").toList)).index
        (mkChunk "d" 0 0 5 (("ab").toList)).start_char) ∧
    (chunk_by_pages 1 [("hello").toList] "d" 500 50 =
      ChunkResult.ok [relabel "d" 0 (mkChunk "d_p0" 0 0 500 (("hello").toList))] ∧
     ∃ (p i : Nat), (relabel "d" 0 (mkChunk "d_p0" 0 0 500 (("hello").toList))).id =
      mkId ("d" ++ "_p" ++ toString p) i
        (relabel "d" 0 (mkChunk "d_p0" 0 0 500 (("hello").toList))).start_char) := by
  constructor
  · refine ⟨by decide, ?_⟩
    exact C5_id_derivation.1 1 (("ab").toList) "d" 5 0 ['\n']
      [mkChunk "d" 0 0 5 (("ab").toList)] (by decide)
      (mkChunk "d" 0 0 5 (("ab").toList)) (by simp)
  · refine ⟨by decide, ?_⟩
    exact C5_id_derivation.2 1 [("hello").toList] "d" 500 50
      [relabel "d" 0 (mkChunk "d_p0" 0 0 500 (("hello").toList))] (by decide)
      (relabel "d" 0 (mkChunk "d_p0" 0 0 500 (("hello").toList))) (by simp)

/-! ## Association-list lemmas -/

section Alist

variable {α β : Type}

lemma alistLookup_isSome_iff_mem (k : String) (l : List (String × α)) :
    (alistLookup k l).isSome ↔ k ∈ keysOf l := by
  induction l with
  | nil => simp [alistLookup, keysOf]
  | cons p ps ih =>
    by_cases h : p.1 = k
    · simp [alistLookup, keysOf, h]
    · simp only [alistLookup, if_neg h, keysOf, List.map_cons, List.mem_cons]
      rw [ih]
      simp [keysOf, Ne.symm h]

lemma alistLookup_eq_none_of_not_mem {k : String} {l : List (String × α)}
    (h : k ∉ keysOf l) : alistLookup k l = none := by
  cases hl : alistLookup k l with
  | none => rfl
  | some v =>
    exact absurd ((alistLookup_isSome_iff_mem k l).mp (by simp [hl])) h

lemma not_mem_of_alistLookup_eq_none {k : String} {l : List (String × α)}
    (h : alistLookup k l = none) : k ∉ keysOf l := by
  intro hmem
  have := (alistLookup_isSome_iff_mem k l).mpr hmem
  simp [h] at this

lemma alistLookup_eq_some_mem {k : String} {l : List (String × α)} {v : α}
    (h : alistLookup k l = some v) : (k, v) ∈ l := by
  induction l with
  | nil => exact Option.noConfusion h
  | cons p ps ih =>
    by_cases hp : p.1 = k
    · rw [alistLookup, if_pos hp] at h
      obtain rfl := Option.some.inj h
      exact List.mem_cons.mpr (Or.inl (by rw [← hp]))
    · rw [alistLookup, if_neg hp] at h
      exact List.mem_cons_of_mem p (ih h)

lemma mem_nodup_alistLookup {k : String} {l : List (String × α)} {v : α}
    (hnd : (keysOf l).Nodup) (h : (k, v) ∈ l) : alistLookup k l = some v := by
  induction l with
  | nil => exact absurd h (List.not_mem_nil _)
  | cons p ps ih =>
    rcases List.mem_cons.mp h with he | hmem
    · rw [← he, alistLookup, if_pos rfl]
    · have hk : k ∈ keysOf ps := List.mem_map.mpr ⟨(k, v), hmem, rfl⟩
      have hne : p.1 ≠ k := by
        intro he2
        exact (List.nodup_cons.mp hnd).1 (he2 ▸ hk)
      rw [alistLookup, if_neg hne]
      exact ih (List.nodup_cons.mp hnd).2 hmem

lemma keysOf_append (l1 l2 : List (String × α)) :
    keysOf (l1 ++ l2) = keysOf l1 ++ keysOf l2 := List.map_append _ _ _

lemma alistLookup_append_right {k : String} {l1 : List (String × α)}
    (l2 : List (String × α)) (h : k ∉ keysOf l1) :
    alistLookup k (l1 ++ l2) = alistLookup k l2 := by
  induction l1 with
  | nil => rfl
  | cons p ps ih =>
    have hne : p.1 ≠ k := by
      intro he
      exact h (he ▸ List.mem_cons_self _ _)
    rw [List.cons_append, alistLookup, if_neg hne]
    exact ih fun hm => h (List.mem_cons_of_mem _ hm)

lemma alistLookup_append_left {k : String} {l1 : List (String × α)}
    (l2 : List (String × α)) (h : k ∈ keysOf l1) :
    alistLookup k (l1 ++ l2) = alistLookup k l1 := by
  induction l1 with
  | nil => simp [keysOf] at h
  | cons p ps ih =>
    by_cases hp : p.1 = k
    · rw [List.cons_append, alistLookup, if_pos hp, alistLookup, if_pos hp]
    · rw [List.cons_append, alistLookup, if_neg hp, alistLookup, if_neg hp]
      refine ih ?_
      rcases List.mem_cons.mp h with he | hm
      · exact absurd he.symm hp
      · exact hm

lemma alistInsert_of_not_mem {k : String} {v : α} {l : List (String × α)}
    (h : k ∉ keysOf l) : alistInsert k v l = l ++ [(k, v)] := by
  induction l with
  | nil => rfl
  | cons p ps ih =>
    have hne : p.1 ≠ k := by
      intro he
      exact h (he ▸ List.mem_cons_self _ _)
    rw [alistInsert, if_neg hne, List.cons_append,
      ih fun hm => h (List.mem_cons_of_mem _ hm)]

lemma keysOf_alistInsert_of_mem {k : String} (v : α) {l : List (String × α)}
    (h : k ∈ keysOf l) : keysOf (alistInsert k v l) = keysOf l := by
  induction l with
  | nil => simp [keysOf] at h
  | cons p ps ih =>
    by_cases hp : p.1 = k
    · rw [alistInsert, if_pos hp]
      show k :: keysOf ps = p.1 :: keysOf ps
      rw [hp]
    · rw [alistInsert, if_neg hp]
      have hm : k ∈ keysOf ps := by
        rcases List.mem_cons.mp h with he | hm
        · exact absurd he.symm hp
        · exact hm
      show p.1 :: keysOf (alistInsert k v ps) = p.1 :: keysOf ps
      exact congrArg (List.cons p.1) (ih hm)

lemma alistLookup_alistInsert_self (k : String) (v : α) (l : List (String × α)) :
    alistLookup k (alistInsert k v l) = some v := by
  induction l with
  | nil => rw [alistInsert, alistLookup, if_pos rfl]
  | cons p ps ih =>
    by_cases hp : p.1 = k
    · rw [alistInsert, if_pos hp, alistLookup, if_pos rfl]
    · rw [alistInsert, if_neg hp, alistLookup, if_neg hp]
      exact ih

lemma alistLookup_alistInsert_ne {k k' : String} (v : α) (l : List (String × α))
    (h : k' ≠ k) : alistLookup k' (alistInsert k v l) = alistLookup k' l := by
  induction l with
  | nil =>
    simp only [alistInsert, alistLookup]
    rw [if_neg (show ¬((k, v).1 = k') from fun he => h he.symm)]
  | cons p ps ih =>
    by_cases hp : p.1 = k
    · rw [alistInsert, if_pos hp]
      simp only [alistLookup]
      rw [if_neg (show ¬((k, v).1 = k') from fun he => h he.symm),
        if_neg (show ¬(p.1 = k') from fun he => h (he.symm.trans hp))]
    · rw [alistInsert, if_neg hp]
      simp only [alistLookup]
      by_cases hp' : p.1 = k'
      · rw [if_pos hp', if_pos hp']
      · rw [if_neg hp', if_neg hp']
        exact ih

lemma self_mem_alistInsert (k : String) (v : α) (l : List (String × α)) :
    (k, v) ∈ alistInsert k v l := by
  induction l with
  | nil => exact List.mem_singleton.mpr rfl
  | cons p ps ih =>
    by_cases hp : p.1 = k
    · rw [alistInsert, if_pos hp]
      exact List.mem_cons_self _ _
    · rw [alistInsert, if_neg hp]
      exact List.mem_cons_of_mem p ih

lemma mem_alistInsert_of_mem_ne {p : String × α} {l : List (String × α)}
    (k : String) (v : α) (hp : p ∈ l) (hne : p.1 ≠ k) : p ∈ alistInsert k v l := by
  induction l with
  | nil => exact absurd hp (List.not_mem_nil _)
  | cons q qs ih =>
    by_cases hq : q.1 = k
    · rw [alistInsert, if_pos hq]
      rcases List.mem_cons.mp hp with rfl | hm
      · exact absurd hq hne
      · exact List.mem_cons_of_mem _ hm
    · rw [alistInsert, if_neg hq]
      rcases List.mem_cons.mp hp with rfl | hm
      · exact List.mem_cons_self _ _
      · exact List.mem_cons_of_mem _ (ih hm)

lemma mem_alistInsert_elim {p : String × α} {k : String} {v : α}
    {l : List (String × α)} (hnd : (keysOf l).Nodup) (hp : p ∈ alistInsert k v l) :
    p = (k, v) ∨ (p ∈ l ∧ p.1 ≠ k) := by
  induction l with
  | nil =>
    left
    exact List.mem_singleton.mp hp
  | cons q qs ih =>
    have hnd2 := List.nodup_cons.mp hnd
    by_cases hq : q.1 = k
    · rw [alistInsert, if_pos hq] at hp
      rcases List.mem_cons.mp hp with rfl | hm
      · exact Or.inl rfl
      · right
        refine ⟨List.mem_cons_of_mem _ hm, ?_⟩
        intro he
        apply hnd2.1
        have hmm : p.1 ∈ keysOf qs := List.mem_map.mpr ⟨p, hm, rfl⟩
        rw [he] at hmm
        rw [hq]
        exact hmm
    · rw [alistInsert, if_neg hq] at hp
      rcases List.mem_cons.mp hp with rfl | hm
      · exact Or.inr ⟨List.mem_cons_self _ _, hq⟩
      · rcases ih hnd2.2 hm with he | ⟨hm2, hne⟩
        · exact Or.inl he
        · exact Or.inr ⟨List.mem_cons_of_mem _ hm2, hne⟩

lemma nodup_keysOf_alistInsert {k : String} (v : α) {l : List (String × α)}
    (hnd : (keysOf l).Nodup) : (keysOf (alistInsert k v l)).Nodup := by
  by_cases h : k ∈ keysOf l
  · rw [keysOf_alistInsert_of_mem v h]
    exact hnd
  · rw [alistInsert_of_not_mem h, keysOf_append]
    refine List.Nodup.append hnd (List.nodup_singleton _) ?_
    intro x hx hx2
    have he : x = (k, v).1 := List.mem_singleton.mp hx2
    rw [he] at hx
    exact h hx

lemma pairwise_alistInsert {R : (String × α) → (String × α) → Prop} {k : String}
    {v : α} {l : List (String × α)} (hnd : (keysOf l).Nodup) (hpw : l.Pairwise R)
    (hR : ∀ q ∈ l, q.1 ≠ k → R (k, v) q ∧ R q (k, v)) :
    (alistInsert k v l).Pairwise R := by
  induction l with
  | nil => exact List.pairwise_singleton _ _
  | cons q qs ih =>
    have hnd2 := List.nodup_cons.mp hnd
    have hpw2 := List.pairwise_cons.mp hpw
    by_cases hq : q.1 = k
    · rw [alistInsert, if_pos hq]
      refine List.pairwise_cons.mpr ⟨?_, hpw2.2⟩
      intro q' hq'
      have hne : q'.1 ≠ k := by
        intro he
        apply hnd2.1
        have hmm : q'.1 ∈ keysOf qs := List.mem_map.mpr ⟨q', hq', rfl⟩
        rw [he] at hmm
        rw [hq]
        exact hmm
      exact (hR q' (List.mem_cons_of_mem _ hq') hne).1
    · rw [alistInsert, if_neg hq]
      refine List.pairwise_cons.mpr ⟨?_, ih hnd2.2 hpw2.2
        (fun q' hq' hne => hR q' (List.mem_cons_of_mem _ hq') hne)⟩
      intro q' hq'
      rcases mem_alistInsert_elim hnd2.2 hq' with rfl | ⟨hm, -⟩
      · exact (hR q (List.mem_cons_self _ _) hq).2
      · exact hpw2.1 q' hm

lemma mem_alistErase {p : String × α} {k : String} {l : List (String × α)} :
    p ∈ alistErase k l ↔ p ∈ l ∧ p.1 ≠ k := by
  unfold alistErase
  rw [List.mem_filter]
  simp

lemma alistErase_sublist (k : String) (l : List (String × α)) :
    List.Sublist (alistErase k l) l := List.filter_sublist l

lemma alistLookup_alistErase_self (k : String) (l : List (String × α)) :
    alistLookup k (alistErase k l) = none := by
  apply alistLookup_eq_none_of_not_mem
  intro hmem
  obtain ⟨p, hp, he⟩ := List.mem_map.mp hmem
  exact (mem_alistErase.mp hp).2 he

lemma alistLookup_alistErase_ne {k k' : String} (l : List (String × α))
    (h : k' ≠ k) : alistLookup k' (alistErase k l) = alistLookup k' l := by
  induction l with
  | nil => rfl
  | cons p ps ih =>
    by_cases hp : p.1 = k
    · have heq : alistErase k (p :: ps) = alistErase k ps := by
        unfold alistErase
        rw [List.filter_cons_of_neg (by simp [hp])]
      rw [heq, ih, alistLookup,
        if_neg (show ¬(p.1 = k') from fun he => h (he.symm.trans hp))]
    · have heq : alistErase k (p :: ps) = p :: alistErase k ps := by
        unfold alistErase
        rw [List.filter_cons_of_pos (by simp [hp])]
      rw [heq]
      by_cases hp' : p.1 = k'
      · rw [alistLookup, if_pos hp', alistLookup, if_pos hp']
      · rw [alistLookup, if_neg hp', alistLookup, if_neg hp']
        exact ih

lemma keysOf_alistErase (k : String) (l : List (String × α)) :
    keysOf (alistErase k l) = (keysOf l).filter (fun x => decide (x ≠ k)) := by
  induction l with
  | nil => rfl
  | cons p ps ih =>
    by_cases hp : p.1 = k
    · have h1 : alistErase k (p :: ps) = alistErase k ps := by
        unfold alistErase
        rw [List.filter_cons_of_neg (by simp [hp])]
      rw [h1, ih, show keysOf (p :: ps) = p.1 :: keysOf ps from rfl,
        List.filter_cons_of_neg (by simp [hp])]
    · have h1 : alistErase k (p :: ps) = p :: alistErase k ps := by
        unfold alistErase
        rw [List.filter_cons_of_pos (by simp [hp])]
      rw [h1, show keysOf (p :: ps) = p.1 :: keysOf ps from rfl,
        List.filter_cons_of_pos (by simp [hp])]
      show p.1 :: keysOf (alistErase k ps) = _
      exact congrArg (List.cons p.1) ih

lemma length_alistErase_of_mem {k : String} {l : List (String × α)}
    (hnd : (keysOf l).Nodup) (h : k ∈ keysOf l) :
    (alistErase k l).length + 1 = l.length := by
  induction l with
  | nil => simp [keysOf] at h
  | cons p ps ih =>
    have hnd2 := List.nodup_cons.mp hnd
    by_cases hp : p.1 = k
    · have h1 : alistErase k (p :: ps) = alistErase k ps := by
        unfold alistErase
        rw [List.filter_cons_of_neg (by simp [hp])]
      have h2 : alistErase k ps = ps := by
        apply List.filter_eq_self.mpr
        intro q hq
        simp only [decide_eq_true_eq]
        intro he
        apply hnd2.1
        have hmm : q.1 ∈ keysOf ps := List.mem_map.mpr ⟨q, hq, rfl⟩
        rw [he] at hmm
        rw [hp]
        exact hmm
      rw [h1, h2, List.length_cons]
    · have h1 : alistErase k (p :: ps) = p :: alistErase k ps := by
        unfold alistErase
        rw [List.filter_cons_of_pos (by simp [hp])]
      have hm : k ∈ keysOf ps := by
        rcases List.mem_cons.mp h with he | hm
        · exact absurd he.symm hp
        · exact hm
      rw [h1, List.length_cons, List.length_cons, ← ih hnd2.2 hm]

end Alist

/-! ## Lemmas about the erase fold of remove_document -/

section EraseFold

variable {α β : Type}

lemma mem_foldl_erase {p : String × α} (cids : List String) (l : List (String × α)) :
    p ∈ cids.foldl (fun m cid => alistErase cid m) l ↔ p ∈ l ∧ p.1 ∉ cids := by
  induction cids generalizing l with
  | nil => simp
  | cons c cs ih =>
    rw [List.foldl_cons, ih, mem_alistErase]
    simp only [List.mem_cons]
    tauto

lemma foldl_erase_sublist (cids : List String) (l : List (String × α)) :
    List.Sublist (cids.foldl (fun m cid => alistErase cid m) l) l := by
  induction cids generalizing l with
  | nil => exact List.Sublist.refl l
  | cons c cs ih =>
    exact (ih (alistErase c l)).trans (alistErase_sublist c l)

lemma alistLookup_foldl_erase_of_mem {cid : String} {cids : List String}
    (l : List (String × α)) (h : cid ∈ cids) :
    alistLookup cid (cids.foldl (fun m c => alistErase c m) l) = none := by
  apply alistLookup_eq_none_of_not_mem
  intro hmem
  obtain ⟨p, hp, he⟩ := List.mem_map.mp hmem
  exact ((mem_foldl_erase cids l).mp hp).2 (by rw [he]; exact h)

lemma alistLookup_foldl_erase_of_not_mem {cid : String} :
    ∀ (cids : List String) (l : List (String × α)), cid ∉ cids →
      alistLookup cid (cids.foldl (fun m c => alistErase c m) l) = alistLookup cid l := by
  intro cids
  induction cids with
  | nil => intro l _; rfl
  | cons c cs ih =>
    intro l h
    rw [List.foldl_cons, ih (alistErase c l) (fun hm => h (List.mem_cons_of_mem c hm)),
      alistLookup_alistErase_ne l
        (fun he => h (by rw [he]; exact List.mem_cons_self c cs))]

lemma keysOf_foldl_erase_congr :
    ∀ (cids : List String) {l1 : List (String × α)} {l2 : List (String × β)},
      keysOf l1 = keysOf l2 →
      keysOf (cids.foldl (fun m c => alistErase c m) l1) =
        keysOf (cids.foldl (fun m c => alistErase c m) l2) := by
  intro cids
  induction cids with
  | nil => intro l1 l2 h; exact h
  | cons c cs ih =>
    intro l1 l2 h
    rw [List.foldl_cons, List.foldl_cons]
    exact ih (by rw [keysOf_alistErase, keysOf_alistErase, h])

lemma length_foldl_erase :
    ∀ (cids : List String) (l : List (String × α)),
      (keysOf l).Nodup → cids.Nodup → (∀ c ∈ cids, c ∈ keysOf l) →
      (cids.foldl (fun m c => alistErase c m) l).length + cids.length = l.length := by
  intro cids
  induction cids with
  | nil => intro l _ _ _; simp
  | cons c cs ih =>
    intro l hnd hcnd hsub
    rw [List.foldl_cons, List.length_cons]
    have hnd2 := List.nodup_cons.mp hcnd
    have hkeys := keysOf_alistErase c l
    have hnd3 : (keysOf (alistErase c l)).Nodup := by
      rw [hkeys]
      exact List.Nodup.filter _ hnd
    have h1 : (cs.foldl (fun m c => alistErase c m) (alistErase c l)).length + cs.length
        = (alistErase c l).length := by
      refine ih (alistErase c l) hnd3 hnd2.2 ?_
      intro c' hc'
      rw [hkeys, List.mem_filter]
      refine ⟨hsub c' (List.mem_cons_of_mem c hc'), ?_⟩
      simp only [decide_eq_true_eq]
      intro he
      apply hnd2.1
      rw [← he]
      exact hc'
    have h2 : (alistErase c l).length + 1 = l.length :=
      length_alistErase_of_mem hnd (hsub c (List.mem_cons_self c cs))
    omega

end EraseFold

/-! ## Stable descending sort lemmas -/

lemma insertDesc_perm (r : SearchResult) (l : List SearchResult) :
    (insertDesc r l).Perm (r :: l) := by
  induction l with
  | nil => exact List.Perm.refl _
  | cons x xs ih =>
    unfold insertDesc
    by_cases h : x.score ≤ r.score
    · rw [if_pos h]
    · rw [if_neg h]
      exact (ih.cons x).trans (List.Perm.swap r x xs)

lemma sortDesc_perm (l : List SearchResult) : (sortDesc l).Perm l := by
  induction l with
  | nil => exact List.Perm.refl _
  | cons x xs ih =>
    exact (insertDesc_perm x (sortDesc xs)).trans (ih.cons x)

lemma insertDesc_sorted {l : List SearchResult}
    (hs : l.Pairwise (fun a b => b.score ≤ a.score)) (r : SearchResult) :
    (insertDesc r l).Pairwise (fun a b => b.score ≤ a.score) := by
  induction l with
  | nil => exact List.pairwise_singleton _ _
  | cons x xs ih =>
    have hs2 := List.pairwise_cons.mp hs
    unfold insertDesc
    by_cases h : x.score ≤ r.score
    · rw [if_pos h]
      refine List.pairwise_cons.mpr ⟨?_, hs⟩
      intro y hy
      rcases List.mem_cons.mp hy with rfl | hm
      · exact h
      · exact le_trans (hs2.1 y hm) h
    · rw [if_neg h]
      refine List.pairwise_cons.mpr ⟨?_, ih hs2.2⟩
      intro y hy
      have hy2 : y ∈ r :: xs := (insertDesc_perm r xs).subset hy
      rcases List.mem_cons.mp hy2 with rfl | hm
      · exact le_of_not_le h
      · exact hs2.1 y hm

lemma sortDesc_sorted (l : List SearchResult) :
    (sortDesc l).Pairwise (fun a b => b.score ≤ a.score) := by
  induction l with
  | nil => exact List.Pairwise.nil
  | cons x xs ih => exact insertDesc_sorted ih x

lemma insertDesc_filter (r : SearchResult) (s : ℝ) (l : List SearchResult) :
    (insertDesc r l).filter (fun x => decide (x.score = s)) =
      (r :: l).filter (fun x => decide (x.score = s)) := by
  induction l with
  | nil => rfl
  | cons x xs ih =>
    unfold insertDesc
    by_cases h : x.score ≤ r.score
    · rw [if_pos h]
    · rw [if_neg h]
      by_cases hx : x.score = s
      · have hr : ¬ r.score = s := by
          intro hr
          apply h
          rw [hx, hr]
        rw [List.filter_cons_of_pos (by simp [hx]), ih,
          List.filter_cons_of_neg (by simp [hr])]
        rw [List.filter_cons_of_neg (by simp [hr]),
          List.filter_cons_of_pos (by simp [hx])]
      · rw [List.filter_cons_of_neg (by simp [hx]), ih]
        by_cases hr : r.score = s
        · rw [List.filter_cons_of_pos (by simp [hr]),
            List.filter_cons_of_pos (by simp [hr]),
            List.filter_cons_of_neg (by simp [hx])]
        · rw [List.filter_cons_of_neg (by simp [hr]),
            List.filter_cons_of_neg (by simp [hr]),
            List.filter_cons_of_neg (by simp [hx])]

lemma sortDesc_filter (s : ℝ) (l : List SearchResult) :
    (sortDesc l).filter (fun x => decide (x.score = s)) =
      l.filter (fun x => decide (x.score = s)) := by
  induction l with
  | nil => rfl
  | cons x xs ih =>
    show (insertDesc x (sortDesc xs)).filter _ = _
    rw [insertDesc_filter]
    by_cases hx : x.score = s
    · rw [List.filter_cons_of_pos (by simp [hx]),
        List.filter_cons_of_pos (by simp [hx]), ih]
    · rw [List.filter_cons_of_neg (by simp [hx]),
        List.filter_cons_of_neg (by simp [hx]), ih]

/-! ## Well-formedness preservation -/

lemma pairwise_disjoint_forall {l : List (String × List String)}
    (h : l.Pairwise (fun p q => ∀ cid ∈ p.2, cid ∉ q.2))
    {p q : String × List String} (hp : p ∈ l) (hq : q ∈ l) (hne : p ≠ q) :
    ∀ cid ∈ p.2, cid ∉ q.2 := by
  have hsym : Symmetric (fun p q : String × List String => ∀ cid ∈ p.2, cid ∉ q.2) := by
    intro a b hab cid hcb hca
    exact hab cid hca hcb
  exact List.Pairwise.forall hsym h hp hq hne

lemma wf_consistent {idx : DocumentIndex} (hwf : WellFormed idx) : Consistent idx := by
  unfold WellFormed at hwf
  obtain ⟨w1, w2, w3, w4, w5, w6, w7⟩ := hwf
  intro cid
  constructor
  · rw [alistLookup_isSome_iff_mem, alistLookup_isSome_iff_mem, w2]
  · constructor
    · intro h
      exact w4 cid ((alistLookup_isSome_iff_mem cid idx.chunks).mp h)
    · rintro ⟨p, hp, hcp⟩
      have h7 := w7 p hp cid hcp
      cases hl : alistLookup cid idx.chunks with
      | none => rw [hl] at h7; exact Option.noConfusion h7
      | some ch => rfl

lemma wf_addOne {idx : DocumentIndex} {c : Chunk} {emb : List ℝ}
    (hwf : WellFormed idx) (hfresh : alistLookup c.id idx.chunks = none) :
    WellFormed (addOne idx c emb) := by
  unfold WellFormed at hwf
  obtain ⟨w1, w2, w3, w4, w5, w6, w7⟩ := hwf
  have hmemK : c.id ∉ keysOf idx.chunks := not_mem_of_alistLookup_eq_none hfresh
  have hmemE : c.id ∉ keysOf idx.embeddings := by
    rw [w2]
    exact hmemK
  have hch : (addOne idx c emb).chunks = idx.chunks ++ [(c.id, c)] :=
    alistInsert_of_not_mem hmemK
  have hemb : (addOne idx c emb).embeddings = idx.embeddings ++ [(c.id, emb)] :=
    alistInsert_of_not_mem hmemE
  set old := (alistLookup c.doc_id idx.docChunks).getD [] with hold
  have hdc : (addOne idx c emb).docChunks =
      alistInsert c.doc_id (old ++ [c.id]) idx.docChunks := by
    rw [hold]
    rfl
  have hw7mem : ∀ q ∈ idx.docChunks, ∀ cid ∈ q.2, cid ∈ keysOf idx.chunks := by
    intro q hq cid hcq
    have h7 := w7 q hq cid hcq
    rw [← alistLookup_isSome_iff_mem]
    cases hl : alistLookup cid idx.chunks with
    | none => rw [hl] at h7; exact Option.noConfusion h7
    | some ch => rfl
  have holdmem : ∀ cid ∈ old,
      (alistLookup cid idx.chunks).map Chunk.doc_id = some c.doc_id := by
    intro cid hcid
    cases hd : alistLookup c.doc_id idx.docChunks with
    | none =>
      rw [hold, hd] at hcid
      exact absurd hcid (List.not_mem_nil cid)
    | some ol =>
      have hcid2 : cid ∈ ol := by
        rw [hold, hd] at hcid
        exact hcid
      exact w7 (c.doc_id, ol) (alistLookup_eq_some_mem hd) cid hcid2
  have holdkeys : ∀ cid ∈ old, cid ∈ keysOf idx.chunks := by
    intro cid hcid
    have h7 := holdmem cid hcid
    rw [← alistLookup_isSome_iff_mem]
    cases hl : alistLookup cid idx.chunks with
    | none => rw [hl] at h7; exact Option.noConfusion h7
    | some ch => rfl
  have hidold : c.id ∉ old := fun hm => hmemK (holdkeys c.id hm)
  have hlookupNew : alistLookup c.id (addOne idx c emb).chunks = some c := by
    rw [hch, alistLookup_append_right _ hmemK, alistLookup, if_pos rfl]
  have hlookupOld : ∀ cid, cid ≠ c.id →
      alistLookup cid (addOne idx c emb).chunks = alistLookup cid idx.chunks :=
    fun cid hne => alistLookup_alistInsert_ne c idx.chunks hne
  have hfreshq : ∀ q ∈ idx.docChunks, c.id ∉ q.2 :=
    fun q hq hcq => hmemK (hw7mem q hq c.id hcq)
  have holddisj : ∀ q ∈ idx.docChunks, q.1 ≠ c.doc_id → ∀ cid ∈ old, cid ∉ q.2 := by
    intro q hq hqne cid hcid
    cases hd : alistLookup c.doc_id idx.docChunks with
    | none =>
      rw [hold, hd] at hcid
      exact absurd hcid (List.not_mem_nil cid)
    | some ol =>
      have hcid2 : cid ∈ ol := by
        rw [hold, hd] at hcid
        exact hcid
      have hpm := alistLookup_eq_some_mem hd
      have hne2 : (c.doc_id, ol) ≠ q := by
        intro he
        apply hqne
        rw [← he]
      exact pairwise_disjoint_forall w6 hpm hq hne2 cid hcid2
  have holdnodup : old.Nodup := by
    cases hd : alistLookup c.doc_id idx.docChunks with
    | none =>
      rw [hold, hd]
      exact List.nodup_nil
    | some ol =>
      rw [hold, hd]
      exact w5 (c.doc_id, ol) (alistLookup_eq_some_mem hd)
  unfold WellFormed
  refine ⟨?_, ?_, ?_, ?_, ?_, ?_, ?_⟩
  · rw [hch, keysOf_append]
    refine List.Nodup.append w1 (List.nodup_singleton _) ?_
    intro x hx hx2
    have he : x = (c.id, c).1 := List.mem_singleton.mp hx2
    rw [he] at hx
    exact hmemK hx
  · rw [hch, hemb, keysOf_append, keysOf_append, w2]
    rfl
  · rw [hdc]
    exact nodup_keysOf_alistInsert _ w3
  · intro cid hcid
    rw [hdc]
    rw [hch, keysOf_append] at hcid
    rcases List.mem_append.mp hcid with hcid | hcid
    · obtain ⟨p, hp, hcp⟩ := w4 cid hcid
      by_cases hpd : p.1 = c.doc_id
      · have hp2 : (c.doc_id, p.2) ∈ idx.docChunks := by
          rw [← hpd, Prod.mk.eta]
          exact hp
        have hlk : alistLookup c.doc_id idx.docChunks = some p.2 :=
          mem_nodup_alistLookup w3 hp2
        have hpe : old = p.2 := by
          rw [hold, hlk]
          rfl
        refine ⟨(c.doc_id, old ++ [c.id]), self_mem_alistInsert _ _ _, ?_⟩
        refine List.mem_append.mpr (Or.inl ?_)
        rw [hpe]
        exact hcp
      · exact ⟨p, mem_alistInsert_of_mem_ne _ _ hp hpd, hcp⟩
    · have he : cid = (c.id, c).1 := List.mem_singleton.mp hcid
      refine ⟨(c.doc_id, old ++ [c.id]), self_mem_alistInsert _ _ _, ?_⟩
      rw [he]
      exact List.mem_append.mpr (Or.inr (List.mem_singleton.mpr rfl))
  · intro p hp
    rw [hdc] at hp
    rcases mem_alistInsert_elim w3 hp with rfl | ⟨hm, -⟩
    · show (old ++ [c.id]).Nodup
      refine List.Nodup.append holdnodup (List.nodup_singleton _) ?_
      intro x hx hx2
      rw [List.mem_singleton.mp hx2] at hx
      exact hidold hx
    · exact w5 p hm
  · rw [hdc]
    refine pairwise_alistInsert w3 w6 ?_
    intro q hq hqne
    constructor
    · intro cid hcid hcq
      rcases List.mem_append.mp hcid with hcid | hcid
      · exact holddisj q hq hqne cid hcid hcq
      · rw [List.mem_singleton.mp hcid] at hcq
        exact hfreshq q hq hcq
    · intro cid hcq hcid
      rcases List.mem_append.mp hcid with hcid | hcid
      · exact holddisj q hq hqne cid hcid hcq
      · rw [List.mem_singleton.mp hcid] at hcq
        exact hfreshq q hq hcq
  · intro p hp cid hcid
    rw [hdc] at hp
    rcases mem_alistInsert_elim w3 hp with rfl | ⟨hm, -⟩
    · rcases List.mem_append.mp hcid with hcid | hcid
      · have hk : cid ∈ keysOf idx.chunks := holdkeys cid hcid
        have hne2 : cid ≠ c.id := by
          intro he
          rw [he] at hk
          exact hmemK hk
        rw [hlookupOld cid hne2]
        exact holdmem cid hcid
      · rw [List.mem_singleton.mp hcid, hlookupNew]
        rfl
    · have hk : cid ∈ keysOf idx.chunks := hw7mem p hm cid hcid
      have hne2 : cid ≠ c.id := by
        intro he
        rw [he] at hk
        exact hmemK hk
      rw [hlookupOld cid hne2]
      exact w7 p hm cid hcid

lemma zip_map_fst_sublist {γ δ : Type} (l1 : List γ) (l2 : List δ) :
    List.Sublist ((l1.zip l2).map Prod.fst) l1 := by
  induction l1 generalizing l2 with
  | nil => simp
  | cons x xs ih =>
    cases l2 with
    | nil => simp
    | cons y ys =>
      rw [List.zip_cons_cons, List.map_cons]
      exact List.Sublist.cons₂ x (ih ys)

lemma wf_add_chunks {idx : DocumentIndex} (cs : List Chunk) (embs : List (List ℝ))
    (hwf : WellFormed idx) (hfresh : ∀ c ∈ cs, alistLookup c.id idx.chunks = none)
    (hnd : (cs.map Chunk.id).Nodup) : WellFormed (add_chunks idx cs embs).1 := by
  unfold add_chunks
  by_cases hcs : cs = []
  · rw [if_pos hcs]
    exact hwf
  · rw [if_neg hcs]
    have main : ∀ (pairs : List (Chunk × List ℝ)) (j : DocumentIndex), WellFormed j →
        (∀ p ∈ pairs, alistLookup p.1.id j.chunks = none) →
        (pairs.map (fun p => p.1.id)).Nodup →
        WellFormed (pairs.foldl (fun i p => addOne i p.1 p.2) j) := by
      intro pairs
      induction pairs with
      | nil =>
        intro j hj _ _
        exact hj
      | cons p ps ih =>
        intro j hj hf hn
        rw [List.foldl_cons]
        have hn2 := List.nodup_cons.mp hn
        refine ih (addOne j p.1 p.2) (wf_addOne hj (hf p (List.mem_cons_self p ps))) ?_ hn2.2
        intro q hq
        have hne : q.1.id ≠ p.1.id := by
          intro he
          exact hn2.1 (List.mem_map.mpr ⟨q, hq, he⟩)
        have heq : alistLookup q.1.id (addOne j p.1 p.2).chunks =
            alistLookup q.1.id j.chunks :=
          alistLookup_alistInsert_ne p.1 j.chunks hne
        rw [heq]
        exact hf q (List.mem_cons_of_mem p hq)
    refine main (cs.zip embs) idx hwf ?_ ?_
    · intro p hp
      have hp2 : (p.1, p.2) ∈ cs.zip embs := by
        rw [Prod.mk.eta]
        exact hp
      exact hfresh p.1 (List.of_mem_zip hp2).1
    · have h1 := (zip_map_fst_sublist cs embs).map Chunk.id
      rw [List.map_map] at h1
      exact List.Nodup.sublist h1 hnd

lemma wf_remove {idx : DocumentIndex} (d : String) (hwf : WellFormed idx) :
    WellFormed (remove_document idx d) := by
  cases hd : alistLookup d idx.docChunks with
  | none =>
    unfold remove_document
    rw [hd]
    exact hwf
  | some cids =>
    unfold WellFormed at hwf
    obtain ⟨w1, w2, w3, w4, w5, w6, w7⟩ := hwf
    have hmemD := alistLookup_eq_some_mem hd
    have hrm : remove_document idx d =
        { chunks := cids.foldl (fun m cid => alistErase cid m) idx.chunks
          embeddings := cids.foldl (fun m cid => alistErase cid m) idx.embeddings
          docChunks := alistErase d idx.docChunks } := by
      unfold remove_document
      rw [hd]
    have hdisj : ∀ p ∈ idx.docChunks, p.1 ≠ d → ∀ cid ∈ p.2, cid ∉ cids := by
      intro p hp hne cid hcid
      have hne2 : p ≠ (d, cids) := by
        intro he
        apply hne
        rw [he]
      exact pairwise_disjoint_forall w6 hp hmemD hne2 cid hcid
    rw [hrm]
    unfold WellFormed
    refine ⟨?_, ?_, ?_, ?_, ?_, ?_, ?_⟩
    · exact List.Nodup.sublist ((foldl_erase_sublist cids idx.chunks).map Prod.fst) w1
    · exact keysOf_foldl_erase_congr cids w2
    · exact List.Nodup.sublist ((alistErase_sublist d idx.docChunks).map Prod.fst) w3
    · intro cid hcid
      obtain ⟨pp, hpp, he⟩ := List.mem_map.mp hcid
      have hm := (mem_foldl_erase cids idx.chunks).mp hpp
      have hcidk : cid ∈ keysOf idx.chunks := by
        rw [← he]
        exact List.mem_map.mpr ⟨pp, hm.1, rfl⟩
      have hcidnot : cid ∉ cids := by
        rw [← he]
        exact hm.2
      obtain ⟨p, hp, hcp⟩ := w4 cid hcidk
      have hpd : p.1 ≠ d := by
        intro hpd
        have hp2 : (d, p.2) ∈ idx.docChunks := by
          rw [← hpd, Prod.mk.eta]
          exact hp
        have hlk := mem_nodup_alistLookup w3 hp2
        rw [hd] at hlk
        have hpc : cids = p.2 := Option.some.inj hlk
        apply hcidnot
        rw [hpc]
        exact hcp
      exact ⟨p, mem_alistErase.mpr ⟨hp, hpd⟩, hcp⟩
    · intro p hp
      exact w5 p (mem_alistErase.mp hp).1
    · exact List.Pairwise.sublist (alistErase_sublist d idx.docChunks) w6
    · intro p hp cid hcid
      have hm := mem_alistErase.mp hp
      have hnotin : cid ∉ cids := hdisj p hm.1 hm.2 cid hcid
      rw [alistLookup_foldl_erase_of_not_mem cids idx.chunks hnotin]
      exact w7 p hm.1 cid hcid

/-! ## Claim C2: cross-mapping consistency -/

/-- C2 counterexample: adding chunk id `"x"` under document `"A"`,
re-adding the same id under document `"B"`, then removing `"A"` leaves
`"x"` listed for `"B"` while absent from the chunk and embedding maps:
the three mappings are inconsistent between calls. -/
theorem C2_consistency_counterexample : ¬ Consistent badIndex := by
  intro h
  have h2 := (h "x").2
  have hmem : ∃ p ∈ badIndex.docChunks, "x" ∈ p.2 :=
    ⟨("B", ["x"]), by decide, by decide⟩
  exact absurd (h2.mpr hmem) (by decide)

/-- C2 (amended): the cross-mapping consistency invariant (together with
the full well-formedness of the three maps) is preserved by
`remove_document` unconditionally, and by `add_chunks` provided the added
chunk ids are fresh and pairwise distinct — the counterexample shows the
freshness proviso cannot be dropped. -/
theorem C2_index_consistency (idx : DocumentIndex) (hwf : WellFormed idx) :
    (∀ cs embs, (∀ c ∈ cs, alistLookup c.id idx.chunks = none) →
      (cs.map Chunk.id).Nodup →
      WellFormed (add_chunks idx cs embs).1 ∧ Consistent (add_chunks idx cs embs).1) ∧
    (∀ d, WellFormed (remove_document idx d) ∧ Consistent (remove_document idx d)) := by
  constructor
  · intro cs embs hfresh hnd
    have hw := wf_add_chunks cs embs hwf hfresh hnd
    exact ⟨hw, wf_consistent hw⟩
  · intro d
    have hw := wf_remove d hwf
    exact ⟨hw, wf_consistent hw⟩

theorem C2_witness :
    WellFormed (add_chunks emptyIndex [chunkA] [[1]]).1 ∧
    Consistent (add_chunks emptyIndex [chunkA] [[1]]).1 ∧
    WellFormed (remove_document idx0 "a") := by
  have h1 := (C2_index_consistency emptyIndex (by decide)).1 [chunkA] [[1]]
    (by
      intro c hc
      obtain rfl := List.mem_singleton.mp hc
      rfl)
    (by decide)
  have h2 := ((C2_index_consistency idx0 (by decide)).2 "a").1
  exact ⟨h1.1, h1.2, h2⟩

/-! ## Claim C3: remove_document -/

/-- C3 counterexample: after adding the same chunk twice (a re-index of
the same document), `list_documents` reports chunk count 2 for document
`"A"` while only one chunk is indexed; removing `"A"` decreases
`total_chunks` by 1, not by the previously reported count 2. -/
theorem C3_remove_count_counterexample :
    list_documents idxReadd = [("A", 2)] ∧
    total_chunks idxReadd = 1 ∧
    total_chunks (remove_document idxReadd "A") = 0 ∧
    total_chunks (remove_document idxReadd "A") + 2 ≠ total_chunks idxReadd := by
  decide

/-- C3 (amended): `remove_document` on an unknown id is a no-op on any
state; on a *well-formed* index, removing a known id removes every chunk
and vector of that document, no longer lists it, and decreases
`total_chunks` by exactly the chunk count previously reported by
`list_documents`. -/
theorem C3_remove_document (idx : DocumentIndex) (d : String) :
    (alistLookup d idx.docChunks = none → remove_document idx d = idx) ∧
    (WellFormed idx → ∀ cids, alistLookup d idx.docChunks = some cids →
      (d, cids.length) ∈ list_documents idx ∧
      total_chunks (remove_document idx d) + cids.length = total_chunks idx ∧
      (∀ q ∈ list_documents (remove_document idx d), q.1 ≠ d) ∧
      (∀ cid ∈ cids,
        alistLookup cid (remove_document idx d).chunks = none ∧
        alistLookup cid (remove_document idx d).embeddings = none)) := by
  constructor
  · intro h
    unfold remove_document
    rw [h]
  · intro hwf cids hd
    unfold WellFormed at hwf
    obtain ⟨w1, w2, w3, w4, w5, w6, w7⟩ := hwf
    have hmemD := alistLookup_eq_some_mem hd
    have hrm : remove_document idx d =
        { chunks := cids.foldl (fun m cid => alistErase cid m) idx.chunks
          embeddings := cids.foldl (fun m cid => alistErase cid m) idx.embeddings
          docChunks := alistErase d idx.docChunks } := by
      unfold remove_document
      rw [hd]
    have hsub : ∀ cid ∈ cids, cid ∈ keysOf idx.chunks := by
      intro cid hcid
      have h7 := w7 (d, cids) hmemD cid hcid
      rw [← alistLookup_isSome_iff_mem]
      cases hl : alistLookup cid idx.chunks with
      | none => rw [hl] at h7; exact Option.noConfusion h7
      | some ch => rfl
    have hcnd : cids.Nodup := w5 (d, cids) hmemD
    refine ⟨List.mem_map.mpr ⟨(d, cids), hmemD, rfl⟩, ?_, ?_, ?_⟩
    · rw [hrm]
      exact length_foldl_erase cids idx.chunks w1 hcnd hsub
    · intro q hq
      rw [hrm] at hq
      obtain ⟨p, hp, rfl⟩ := List.mem_map.mp hq
      exact (mem_alistErase.mp hp).2
    · intro cid hcid
      rw [hrm]
      exact ⟨alistLookup_foldl_erase_of_mem idx.chunks hcid,
        alistLookup_foldl_erase_of_mem idx.embeddings hcid⟩

theorem C3_witness :
    remove_document idx0 "zzz" = idx0 ∧
    ("a", 1) ∈ list_documents idx0 ∧
    total_chunks (remove_document idx0 "a") + 1 = total_chunks idx0 ∧
    (∀ q ∈ list_documents (remove_document idx0 "a"), q.1 ≠ "a") ∧
    alistLookup "x" (remove_document idx0 "a").chunks = none := by
  have h1 := (C3_remove_document idx0 "zzz").1 (by decide)
  have h2 := (C3_remove_document idx0 "a").2 (by decide) ["x"] (by decide)
  exact ⟨h1, h2.1, h2.2.1, h2.2.2.1,
    (h2.2.2.2 "x" (List.mem_singleton.mpr rfl)).1⟩

/-! ## Claim C7: search ranking order, stability, truncation -/

/-- C7: search results are sorted descending by score, equal-score
candidates keep their encounter (insertion) order — the ranked list
filtered to any one score equals the encounter-ordered candidate list so
filtered — and the ranking is truncated to at most `top_k` results, all
of them when `top_k` is at least the candidate count. -/
theorem C7_search_ranking (idx : DocumentIndex) (qe : List ℝ) (d : Option String)
    (k : Int) (hwf : WellFormed idx) :
    (search idx qe d k).Pairwise (fun a b => b.score ≤ a.score) ∧
    (∀ s : ℝ,
      (sortDesc (rankedCandidates idx qe d)).filter (fun x => decide (x.score = s)) =
        (rankedCandidates idx qe d).filter (fun x => decide (x.score = s))) ∧
    (0 ≤ k → search idx qe d k = (sortDesc (rankedCandidates idx qe d)).take k.toNat) ∧
    (0 ≤ k → (rankedCandidates idx qe d).length ≤ k.toNat →
      search idx qe d k = sortDesc (rankedCandidates idx qe d)) := by
  refine ⟨?_, fun s => sortDesc_filter s _, fun hk => ?_, fun hk hlen => ?_⟩
  · have hex : ∃ n, search idx qe d k = (sortDesc (rankedCandidates idx qe d)).take n := by
      unfold search pySlice
      by_cases h : 0 ≤ k
      · exact ⟨k.toNat, by rw [if_pos h]⟩
      · exact ⟨_, by rw [if_neg h]⟩
    obtain ⟨n, hn⟩ := hex
    rw [hn]
    exact List.Pairwise.sublist (List.take_sublist n _) (sortDesc_sorted _)
  · unfold search pySlice
    rw [if_pos hk]
  · unfold search pySlice
    rw [if_pos hk]
    apply List.take_of_length_le
    rw [(sortDesc_perm _).length_eq]
    exact hlen

theorem C7_witness :
    (search idx0 [(1:ℝ)] none 2).Pairwise (fun a b => b.score ≤ a.score) ∧
    search idx0 [(1:ℝ)] none 2 = (sortDesc (rankedCandidates idx0 [(1:ℝ)] none)).take 2 := by
  have h := C7_search_ranking idx0 [(1:ℝ)] none 2 (by decide)
  exact ⟨h.1, by simpa using h.2.2.1 (by norm_num)⟩

/-! ## Claim C8: document-scoped search -/

/-- C8 counterexample: the empty-string document id is known to the index
(it owns chunk `e1`), yet searching scoped to it returns a chunk of
document `"b"`, because Python's `if doc_id and ...` treats `""` as falsy
and silently falls back to the full index. -/
theorem C8_empty_docid_counterexample :
    alistLookup "" idxEmptyDoc.docChunks = some ["e1"] ∧
    (search idxEmptyDoc [(0:ℝ)] (some "") 5).map (fun r => r.chunk.doc_id) =
      ["", "b"] := by
  constructor
  · decide
  · have hcos : cosine_similarity [(0:ℝ)] [(0:ℝ)] = 0 := by
      unfold cosine_similarity
      rw [if_pos (Or.inl (by simp [magnitude]))]
    have hr : rankedCandidates idxEmptyDoc [(0:ℝ)] (some "") =
        [⟨chunkE, cosine_similarity [(0:ℝ)] [(0:ℝ)]⟩,
         ⟨chunkB, cosine_similarity [(0:ℝ)] [(0:ℝ)]⟩] := rfl
    unfold search
    rw [hr, hcos]
    have hsort : sortDesc [⟨chunkE, (0:ℝ)⟩, ⟨chunkB, (0:ℝ)⟩] =
        [⟨chunkE, (0:ℝ)⟩, ⟨chunkB, (0:ℝ)⟩] := by
      show insertDesc ⟨chunkE, (0:ℝ)⟩ (insertDesc ⟨chunkB, (0:ℝ)⟩ (sortDesc [])) = _
      rw [show sortDesc [] = [] from rfl, show insertDesc ⟨chunkB, (0:ℝ)⟩ [] =
        [⟨chunkB, (0:ℝ)⟩] from rfl]
      unfold insertDesc
      rw [if_pos (le_refl (0:ℝ))]
    rw [hsort]
    rfl

/-- C8 (amended): scoping `search` to a known *non-empty* document id
returns only chunks of that document (on a well-formed index); scoping to
an unknown id does not raise and returns exactly the unscoped full-index
ranking.  The counterexample shows the non-emptiness proviso is needed:
the empty-string id is treated as absent even when known. -/
theorem C8_search_scoping (idx : DocumentIndex) (qe : List ℝ) (d : String) (k : Int)
    (hwf : WellFormed idx) :
    (∀ cids, d ≠ "" → alistLookup d idx.docChunks = some cids →
      ∀ r ∈ search idx qe (some d) k, r.chunk.doc_id = d) ∧
    (alistLookup d idx.docChunks = none →
      search idx qe (some d) k = search idx qe none k) := by
  constructor
  · intro cids hne hd r hr
    have hr2 : r ∈ sortDesc (rankedCandidates idx qe (some d)) := by
      unfold search pySlice at hr
      by_cases h : 0 ≤ k
      · rw [if_pos h] at hr
        exact List.take_subset _ _ hr
      · rw [if_neg h] at hr
        exact List.take_subset _ _ hr
    have hr3 : r ∈ rankedCandidates idx qe (some d) :=
      (sortDesc_perm _).subset hr2
    have hcand : candidateIds idx (some d) = cids := by
      show (if d ≠ "" ∧ (alistLookup d idx.docChunks).isSome = true
            then (alistLookup d idx.docChunks).getD []
            else keysOf idx.chunks) = cids
      rw [if_pos (⟨hne, by rw [hd]; rfl⟩ : d ≠ "" ∧ (alistLookup d idx.docChunks).isSome = true), hd]
      rfl
    unfold rankedCandidates at hr3
    rw [hcand] at hr3
    obtain ⟨cid, hcid, hres⟩ := List.mem_filterMap.mp hr3
    cases he : alistLookup cid idx.embeddings with
    | none =>
      rw [he] at hres
      exact Option.noConfusion hres
    | some emb =>
      cases hc : alistLookup cid idx.chunks with
      | none =>
        rw [he, hc] at hres
        exact Option.noConfusion hres
      | some ch =>
        rw [he, hc] at hres
        have hres2 : some (⟨ch, cosine_similarity qe emb⟩ : SearchResult) = some r := hres
        obtain rfl := Option.some.inj hres2
        unfold WellFormed at hwf
        obtain ⟨-, -, -, -, -, -, w7⟩ := hwf
        have h7 := w7 (d, cids) (alistLookup_eq_some_mem hd) cid hcid
        rw [hc] at h7
        exact Option.some.inj h7
  · intro hd
    have hcand : candidateIds idx (some d) = candidateIds idx none := by
      show (if d ≠ "" ∧ (alistLookup d idx.docChunks).isSome = true
            then (alistLookup d idx.docChunks).getD []
            else keysOf idx.chunks) = keysOf idx.chunks
      rw [if_neg (by rw [hd]; simp)]
    unfold search rankedCandidates
    rw [hcand]

theorem C8_witness :
    (∀ r ∈ search idx0 [(1:ℝ)] (some "a") 5, r.chunk.doc_id = "a") ∧
    search idx0 [(1:ℝ)] (some "zz") 5 = search idx0 [(1:ℝ)] none 5 := by
  refine ⟨(C8_search_scoping idx0 [(1:ℝ)] "a" 5 (by decide)).1 ["x"]
      (by decide) (by decide),
    (C8_search_scoping idx0 [(1:ℝ)] "zz" 5 (by decide)).2 (by decide)⟩

/-! ## Claim C6: shape of the returned chunk sequence -/

lemma strip_eq_nil_iff (l : List Char) :
    strip l = [] ↔ ∀ ch ∈ l, ch.isWhitespace = true := by
  unfold strip lstrip
  rw [List.reverse_eq_nil_iff, List.dropWhile_eq_nil_iff]
  constructor
  · intro h ch hch
    rw [← List.takeWhile_append_dropWhile (p := fun c => c.isWhitespace) (l := l)] at hch
    rcases List.mem_append.mp hch with h1 | h2
    · exact List.mem_takeWhile_imp h1
    · exact h ch (List.mem_reverse.mpr h2)
  · intro h ch hch
    exact h ch ((List.dropWhile_sublist _).subset (List.mem_reverse.mp hch))

lemma take_append_slice {text : List Char} {s e : Nat} (h : s ≤ e) :
    text.take e = text.take s ++ slice text s e := by
  have he : s + (e - s) = e := by omega
  calc text.take e = text.take (s + (e - s)) := by rw [he]
    _ = text.take s ++ (text.drop s).take (e - s) := List.take_add _ _ _
    _ = text.take s ++ slice text s e := rfl

lemma allWS_take_mono {text : List Char} {m n : Nat} (h : m ≤ n)
    (hws : ∀ ch ∈ text.take n, ch.isWhitespace = true) :
    ∀ ch ∈ text.take m, ch.isWhitespace = true := by
  intro ch hch
  have he : text.take m = (text.take n).take m := by
    rw [List.take_take, Nat.min_eq_left h]
  rw [he] at hch
  exact hws ch (List.take_subset m _ hch)

lemma lt_chunkEnd {text sep : List Char} {csize : Nat} (start : Nat)
    (h : 1 ≤ csize) : start < chunkEnd text sep csize start := by
  simp only [chunkEnd]
  by_cases h1 : start + csize < text.length
  · simp only [if_pos h1]
    cases hr : rfind text sep start (start + csize) with
    | none =>
      show start < start + csize
      omega
    | some l =>
      show start < if start < l then l + sep.length else start + csize
      split_ifs with h2
      · omega
      · omega
  · simp only [if_neg h1]
    omega

lemma indices_append (cs : List Chunk) (c : Chunk)
    (h3 : cs.map Chunk.index = List.range cs.length) (hc : c.index = cs.length) :
    (cs ++ [c]).map Chunk.index = List.range (cs ++ [c]).length := by
  rw [List.map_append, h3, List.length_append]
  show List.range cs.length ++ [c.index] = List.range (cs.length + 1)
  rw [hc, List.range_succ]

lemma chain_append_start {cs : List Chunk} {c : Chunk}
    (h4 : List.Chain' (· < ·) (cs.map Chunk.start_char))
    (h5 : ∀ c', cs.getLast? = some c' → c'.start_char < c.start_char) :
    List.Chain' (· < ·) ((cs ++ [c]).map Chunk.start_char) := by
  rw [List.map_append, List.chain'_append]
  refine ⟨h4, List.chain'_singleton _, ?_⟩
  intro x hx y hy
  have hy2 : c.start_char = y := by
    simpa using hy
  rw [List.getLast?_map, Option.mem_def, Option.map_eq_some'] at hx
  obtain ⟨c', hc', rfl⟩ := hx
  rw [← hy2]
  exact h5 c' hc'

lemma stepIndex_of_empty {text sep : List Char} {csize s : Nat} (i : Nat)
    (h : strip (slice text s (chunkEnd text sep csize s)) = []) :
    stepIndex text sep csize s i = i := by
  unfold stepIndex
  rw [if_pos h]

lemma stepIndex_of_ne {text sep : List Char} {csize s : Nat} (i : Nat)
    (h : ¬ strip (slice text s (chunkEnd text sep csize s)) = []) :
    stepIndex text sep csize s i = i + 1 := by
  unfold stepIndex
  rw [if_neg h]

lemma guardForce_last_false {cs : List Chunk} {c : Chunk} {s1 : Nat}
    (hlast : cs.getLast? = some c) (hg : ¬ guardForce cs s1 = true) :
    c.start_char < s1 := by
  unfold guardForce at hg
  rw [hlast] at hg
  simp only [decide_eq_true_eq] at hg
  omega

lemma chunkInv_step {text : List Char} {docId : String} {csize ov : Nat}
    {sep : List Char} (hcs : 1 ≤ csize) :
    ∀ s i cs s' i' cs', chunkInv text s i cs →
      chunkStep text docId csize ov sep s i cs = Sum.inr (s', i', cs') →
      chunkInv text s' i' cs' := by
  intro s i cs s' i' cs' hinv hst
  obtain ⟨i1, i2, i3, i4, i5⟩ := hinv
  obtain ⟨hlt, hnle, hcs', hi', hs'⟩ := chunkStep_inr_parts hst
  have hse : s < chunkEnd text sep csize s := lt_chunkEnd s hcs
  rcases stepChunks_shape text docId sep csize s i cs with ⟨hc, hsh⟩ | ⟨hc, hsh⟩
  · -- no chunk emitted this iteration
    rw [hsh] at hcs' hs'
    rw [hcs']
    have hs'le : s' ≤ chunkEnd text sep csize s := by
      rw [hs']
      split_ifs <;> omega
    refine ⟨?_, ?_, i3, i4, ?_⟩
    · intro hnil
      have hall_s := i1 hnil
      have hall_slice := (strip_eq_nil_iff _).mp hc
      have hall_e : ∀ ch ∈ text.take (chunkEnd text sep csize s),
          ch.isWhitespace = true := by
        rw [take_append_slice (le_of_lt hse)]
        intro ch hch
        rcases List.mem_append.mp hch with h1 | h2
        · exact hall_s ch h1
        · exact hall_slice ch h2
      exact allWS_take_mono hs'le hall_e
    · rw [hi', stepIndex_of_empty i hc]
      exact i2
    · intro c hc'
      rw [hs']
      by_cases hg : guardForce cs (chunkEnd text sep csize s - ov) = true
      · rw [if_pos hg]
        exact lt_trans (i5 c hc') hse
      · rw [if_neg hg]
        exact guardForce_last_false hc' hg
  · -- a chunk was emitted
    rw [hsh] at hcs' hs'
    rw [hcs']
    have hlast : (cs ++ [mkChunk docId i s (chunkEnd text sep csize s)
        (strip (slice text s (chunkEnd text sep csize s)))]).getLast? =
        some (mkChunk docId i s (chunkEnd text sep csize s)
          (strip (slice text s (chunkEnd text sep csize s)))) :=
      List.getLast?_concat _
    refine ⟨?_, ?_, ?_, ?_, ?_⟩
    · intro hnil
      exact absurd hnil (by simp)
    · rw [hi', stepIndex_of_ne i hc, List.length_append, i2]
      rfl
    · exact indices_append cs _ i3 i2
    · exact chain_append_start i4 (fun c' hc' => i5 c' hc')
    · intro c hc'
      rw [hlast] at hc'
      obtain rfl := Option.some.inj hc'
      show s < s'
      rw [hs']
      by_cases hg : guardForce (cs ++ [mkChunk docId i s (chunkEnd text sep csize s)
          (strip (slice text s (chunkEnd text sep csize s)))])
          (chunkEnd text sep csize s - ov) = true
      · rw [if_pos hg]
        exact hse
      · rw [if_neg hg]
        exact guardForce_last_false hlast hg

lemma chunkInv_exit {text : List Char} {docId : String} {csize ov : Nat}
    {sep : List Char} (hcs : 1 ≤ csize) (hnb : ¬ strip text = []) :
    ∀ s i cs r, chunkInv text s i cs →
      chunkStep text docId csize ov sep s i cs = Sum.inl r →
      r ≠ [] ∧ r.map Chunk.index = List.range r.length ∧
        List.Chain' (· < ·) (r.map Chunk.start_char) := by
  intro s i cs r hinv hst
  obtain ⟨i1, i2, i3, i4, i5⟩ := hinv
  rcases chunkStep_inl_parts hst with ⟨hge, rfl⟩ | ⟨hlt, hle, rfl⟩
  · refine ⟨?_, i3, i4⟩
    intro hnil
    apply hnb
    rw [strip_eq_nil_iff]
    intro ch hch
    refine i1 hnil ch ?_
    rw [List.take_of_length_le (by omega)]
    exact hch
  · have hse : s < chunkEnd text sep csize s := lt_chunkEnd s hcs
    have hlen_e : text.length ≤ chunkEnd text sep csize s := by omega
    rcases stepChunks_shape text docId sep csize s i cs with ⟨hc, hsh⟩ | ⟨hc, hsh⟩
    · rw [hsh]
      refine ⟨?_, i3, i4⟩
      intro hnil
      apply hnb
      rw [strip_eq_nil_iff]
      have hall_s := i1 hnil
      have hall_slice := (strip_eq_nil_iff _).mp hc
      intro ch hch
      have hch2 : ch ∈ text.take (chunkEnd text sep csize s) := by
        rw [List.take_of_length_le hlen_e]
        exact hch
      rw [take_append_slice (le_of_lt hse)] at hch2
      rcases List.mem_append.mp hch2 with h1 | h2
      · exact hall_s ch h1
      · exact hall_slice ch h2
    · rw [hsh]
      exact ⟨by simp, indices_append cs _ i3 i2,
        chain_append_start i4 (fun c' hc' => i5 c' hc')⟩

/-- C6 (amended): *whenever `chunk_text` returns* (for any fuel) on
non-blank text, the result is a non-empty sequence whose `index` fields
are exactly `0..N-1` in list order and whose `start_char` values are
non-decreasing (in fact strictly increasing), no matter how many candidate
windows were discarded as empty.  The counterexample shows the
as-stated claim fails: there are valid parameters and non-blank texts on
which `chunk` never returns at all. -/
theorem C6_chunk_shape (fuel : Nat) (text : List Char) (d : String) (cs ov : Int)
    (sep : List Char) (r : List Chunk)
    (h : chunk_text fuel text d cs ov sep = ChunkResult.ok r)
    (hnb : ¬ strip text = []) :
    r ≠ [] ∧ r.map Chunk.index = List.range r.length ∧
      List.Chain' (· ≤ ·) (r.map Chunk.start_char) := by
  rcases chunk_text_ok_elim h with ⟨hb, -⟩ | ⟨-, hcs, hov, hlt, hl⟩
  · exact absurd hb hnb
  · have hone : 1 ≤ cs.toNat := by omega
    have hinit : chunkInv text 0 0 [] := by
      refine ⟨?_, rfl, rfl, List.chain'_nil, ?_⟩
      · intro _ ch hch
        simp at hch
      · intro c hc
        simp at hc
    have hmain := chunkLoop_inv (chunkInv text)
      (fun r => r ≠ [] ∧ r.map Chunk.index = List.range r.length ∧
        List.Chain' (· < ·) (r.map Chunk.start_char))
      (chunkInv_step hone) (chunkInv_exit hone hnb) fuel 0 0 [] r hinit hl
    exact ⟨hmain.1, hmain.2.1, hmain.2.2.imp (fun {a b} hab => le_of_lt hab)⟩

lemma chunkStep_loopText2_stuck :
    chunkStep loopText2 "d" 4 2 ['\n'] 4 2 loopStuckChunks2 =
      Sum.inr (4, 2, loopStuckChunks2) := rfl

lemma chunkLoop_loopText2_stuck (fuel : Nat) :
    chunkLoop loopText2 "d" 4 2 ['\n'] fuel 4 2 loopStuckChunks2 = none := by
  induction fuel with
  | zero => rfl
  | succ n ih =>
    have h : chunkLoop loopText2 "d" 4 2 ['\n'] (n + 1) 4 2 loopStuckChunks2 =
        chunkLoop loopText2 "d" 4 2 ['\n'] n 4 2 loopStuckChunks2 := rfl
    exact h.trans ih

lemma chunkLoop_loopText2_init (fuel : Nat) :
    chunkLoop loopText2 "d" 4 2 ['\n'] (fuel + 2) 0 0 [] =
      chunkLoop loopText2 "d" 4 2 ['\n'] fuel 4 2 loopStuckChunks2 := rfl

lemma chunkLoop_loopText2_none (fuel : Nat) :
    chunkLoop loopText2 "d" 4 2 ['\n'] fuel 0 0 [] = none := by
  match fuel with
  | 0 => rfl
  | 1 => rfl
  | (n + 2) => exact (chunkLoop_loopText2_init n).trans (chunkLoop_loopText2_stuck n)

/-- C6 counterexample: `loopText2` is non-blank and the parameters are
valid (`0 < 4`, `0 ≤ 2 < 4`), yet `chunk` never returns a sequence at
all — the cursor loop repeats the same state forever — so the claim's
universally quantified description of the returned sequence fails. -/
theorem C6_nontermination_counterexample :
    (¬ strip loopText2 = []) ∧ ((0:Int) < 4 ∧ (0:Int) ≤ 2 ∧ (2:Int) < 4) ∧
    ¬ ChunkTextReturns loopText2 "d" 4 2 ['\n'] := by
  refine ⟨by decide, ⟨by norm_num, by norm_num, by norm_num⟩, ?_⟩
  rintro ⟨fuel, r, hok⟩
  rcases chunk_text_ok_elim hok with ⟨hb, -⟩ | ⟨-, -, -, -, hl⟩
  · exact (by decide : ¬ strip loopText2 = []) hb
  · have hnone := chunkLoop_loopText2_none fuel
    have hl2 : chunkLoop loopText2 "d" 4 2 ['\n'] fuel 0 0 [] = some r := hl
    rw [hnone] at hl2
    exact Option.noConfusion hl2

theorem C6_witness :
    chunk_text 1 (("xy").toList) "d" 3 1 ['\n'] =
      ChunkResult.ok [mkChunk "d" 0 0 3 (("xy").toList)] ∧
    (¬ strip (("xy").toList) = []) ∧
    ([mkChunk "d" 0 0 3 (("xy").toList)] ≠ [] ∧
      [mkChunk "d" 0 0 3 (("xy").toList)].map Chunk.index =
        List.range [mkChunk "d" 0 0 3 (("xy").toList)].length ∧
      List.Chain' (· ≤ ·)
        ([mkChunk "d" 0 0 3 (("xy").toList)].map Chunk.start_char)) := by
  refine ⟨by decide, by decide, ?_⟩
  exact C6_chunk_shape 1 (("xy").toList) "d" 3 1 ['\n']
    [mkChunk "d" 0 0 3 (("xy").toList)] (by decide) (by decide)

end McpDocServer
